import Mathlib

set_option maxRecDepth 8000

/- Verification development for the Tiger-Lily repository's fixed-width
substring index (tigerlily/index/fixedtree.py) together with the string
utilities it uses (tigerlily/utility/string_relations.py) and the
reverse-complement helper (tigerlily/sequences/genomic.py).

Strings are embedded as `List Char`; Python exceptions are embedded as
`Except Err`; Python's `None`-able integer arguments are `Option Nat`
(where Python truthiness of an integer n is `n ≠ 0`). -/

/-- The runtime failures reachable from the embedded code, one constructor
per raise site: `invalidWidth` is the `ValueError` of `FixedTree.alignments`'
width check, `hammingLength` is the `ValueError` of `hamming_distance`,
`nameError` is the `NameError` caused by the misspelled variable
`maximum_alignmets` in `FixedTreeNode.alignments`, and `keyError` is the
`KeyError` of the `sequence_name_table[...]` lookup during result
formatting. -/
inductive Err : Type where
  | invalidWidth : Err
  | hammingLength : Err
  | nameError : Err
  | keyError : Err
  deriving DecidableEq, Repr

/-- Count of mismatching positions of `zip s1 s2`: the value
`sum(ch1 != ch2 for ch1,ch2 in zip(s1,s2))` computed by `hamming_distance`. -/
def hammingCount (s1 s2 : List Char) : Nat :=
  (s1.zip s2).countP (fun p => p.1 != p.2)

/-- Embeds `tigerlily.utility.string_relations.hamming_distance`: raises
`ValueError` when the lengths differ, otherwise counts differing positions. -/
def hamming_distance (s1 s2 : List Char) : Except Err Nat :=
  if s1.length ≠ s2.length then Except.error Err.hammingLength
  else Except.ok (hammingCount s1 s2)

/-- Embeds `tigerlily.utility.string_relations.greatest_common_prefix`:
the length of the longest common prefix of the two strings (the Python
loop returns the first differing index, or the smaller length). -/
def gcp : List Char → List Char → Nat
  | a :: as, b :: bs => if a = b then gcp as bs + 1 else 0
  | _, _ => 0

/-- The character map `COMPLEMENT_TRANS = str.maketrans('atgcATGC','tacgTACG')`
of tigerlily/sequences/genomic.py; `str.translate` leaves unmapped
characters unchanged. -/
def complementChar (c : Char) : Char :=
  if c = 'a' then 't' else if c = 't' then 'a'
  else if c = 'g' then 'c' else if c = 'c' then 'g'
  else if c = 'A' then 'T' else if c = 'T' then 'A'
  else if c = 'G' then 'C' else if c = 'C' then 'G'
  else c

/-- Embeds `tigerlily.sequences.genomic.reverse_complement`:
`sequence[::-1].translate(COMPLEMENT_TRANS)`. -/
def reverse_complement (s : List Char) : List Char :=
  s.reverse.map complementChar

/-- One record stored at a node: `(sequence id, offset, strand)`, exactly the
`alignment` tuples built by `FixedTree.add_sequence`. -/
abbrev AlignRecord : Type := Nat × Nat × Bool

/-- One search result before formatting: `(mismatches consumed, id, offset,
strand)`, the 4-tuples produced by `FixedTreeNode.alignments`. -/
abbrev SearchResult : Type := Nat × Nat × Nat × Bool

/-- Embeds `FixedTreeNode` from tigerlily/index/fixedtree.py: the `edges`
dict becomes an association list in Python 3.7+ dict insertion order, the
`_alignments` list is kept verbatim. -/
inductive FixedTreeNode : Type where
  | mk (edges : List (List Char × FixedTreeNode)) (aligns : List AlignRecord) :
      FixedTreeNode

/-- The `edges` field of a node. -/
def FixedTreeNode.edges : FixedTreeNode → List (List Char × FixedTreeNode)
  | .mk es _ => es

/-- The `_alignments` field of a node. -/
def FixedTreeNode.alignRecords : FixedTreeNode → List AlignRecord
  | .mk _ as => as

/-- The scan of `for edge_label in self.edges:` inside `FixedTreeNode.insert`.
For each edge in insertion order it first tries the exact-prefix case, then
the split case; if no edge matches, the whole remaining sequence becomes a
fresh edge appended at the end (`self.edges[sequence] = FixedTreeNode(alignment)`).
In the split case Python deletes the key `edge_label` and inserts the key
`edge_label[:gsc]`, which lands at the end of the dict order; the recursive
insertion into the node behind the matched edge is supplied as `recI`. -/
def insertScan (recI : FixedTreeNode → List Char → FixedTreeNode)
    (s : List Char) (a : AlignRecord) :
    List (List Char × FixedTreeNode) → List (List Char × FixedTreeNode)
  | [] => [(s, FixedTreeNode.mk [] [a])]
  | (L, c) :: rest =>
    if L.isPrefixOf s then
      (L, recI c (s.drop L.length)) :: rest
    else if 0 < gcp L s then
      rest ++ [(L.take (gcp L s),
                recI (FixedTreeNode.mk [(L.drop (gcp L s), c)] []) (s.drop (gcp L s)))]
    else
      (L, c) :: insertScan recI s a rest

/-- Embeds `FixedTreeNode.insert`, with an explicit recursion-depth bound
`fuel`. Every edge label created by insertion is non-empty, so each
recursive call strictly shortens `sequence`; `fuel = sequence.length`
therefore always suffices for trees built by this development's own
operations, and the out-of-fuel fallback (return the node unchanged) is
unreachable there. -/
def insertAux (fuel : Nat) (node : FixedTreeNode) (s : List Char)
    (a : AlignRecord) : FixedTreeNode :=
  match s with
  | [] =>
    match node with
    | .mk es as => .mk es (as ++ [a])
  | _ =>
    match fuel with
    | 0 => node
    | f + 1 =>
      match node with
      | .mk es as => .mk (insertScan (fun c s2 => insertAux f c s2 a) s a es) as

/-- `FixedTreeNode.insert(sequence, alignment)`. -/
def FixedTreeNode.insert (node : FixedTreeNode) (s : List Char)
    (a : AlignRecord) : FixedTreeNode :=
  insertAux s.length node s a

/-- Python truthiness of the `maximum_alignments` argument: `None` and `0`
are falsy, every other integer is truthy. -/
def capTruthy : Option Nat → Bool
  | some k => k != 0
  | none => false

/-- The expression
`maximum_alignments - len(alignments) if maximum_alignments else None`
as it appears (correctly spelled) in the exact-prefix branch of
`FixedTreeNode.alignments`; the search guarantees `n ≤ k` whenever this is
evaluated, so natural subtraction agrees with Python's. -/
def childCap (cap : Option Nat) (n : Nat) : Option Nat :=
  if capTruthy cap then some (cap.getD 0 - n) else none

/-- The scan of `for edge_label in self.edges:` inside
`FixedTreeNode.alignments`, accumulating into `acc` (the local variable
`alignments`). The exact-prefix branch recurses with the same remaining
budget and cap `childCap`; otherwise, when budget remains, the Hamming
branch fires, and there the cap expression reads the misspelled name
`maximum_alignmets`, so a truthy cap raises `NameError` (a falsy cap short
circuits to `None` before the bad name is evaluated). After either
recursion Python returns early when the cap is truthy and exceeded. -/
def alignScan
    (recA : FixedTreeNode → List Char → Nat → Option Nat →
      Except Err (List SearchResult))
    (s : List Char) (rem : Nat) (cap : Option Nat) :
    List (List Char × FixedTreeNode) → List SearchResult →
      Except Err (List SearchResult)
  | [], acc => Except.ok acc
  | (L, c) :: rest, acc =>
    if L.isPrefixOf s then
      match recA c (s.drop L.length) rem (childCap cap acc.length) with
      | Except.error e => Except.error e
      | Except.ok res =>
        if capTruthy cap ∧ cap.getD 0 < (acc ++ res).length then
          Except.ok (acc ++ res)
        else
          alignScan recA s rem cap rest (acc ++ res)
    else if 0 < rem then
      match hamming_distance L (s.take L.length) with
      | Except.error e => Except.error e
      | Except.ok hd =>
        if hd ≤ rem then
          if capTruthy cap then Except.error Err.nameError
          else
            match recA c (s.drop L.length) (rem - hd) none with
            | Except.error e => Except.error e
            | Except.ok res =>
              if capTruthy cap ∧ cap.getD 0 < (acc ++ res).length then
                Except.ok (acc ++ res)
              else
                alignScan recA s rem cap rest (acc ++ res)
        else
          alignScan recA s rem cap rest acc
    else
      alignScan recA s rem cap rest acc

/-- Embeds `FixedTreeNode.alignments(sequence, original_mismatches,
remaining_mismatches, maximum_alignments)` with an explicit recursion-depth
bound `fuel` (edge labels of built trees are non-empty, so
`fuel = sequence.length` always suffices there; the out-of-fuel fallback
returns an empty result list and is unreachable on built trees). -/
def alignmentsAux (fuel : Nat) (node : FixedTreeNode) (s : List Char)
    (orig rem : Nat) (cap : Option Nat) : Except Err (List SearchResult) :=
  match s with
  | [] =>
    Except.ok (node.alignRecords.map (fun v => (orig - rem, v.1, v.2.1, v.2.2)))
  | _ =>
    match fuel with
    | 0 => Except.ok []
    | f + 1 =>
      alignScan (fun c s2 rem2 cap2 => alignmentsAux f c s2 orig rem2 cap2)
        s rem cap node.edges []

/-- `FixedTreeNode.alignments` entered at its natural fuel. -/
def FixedTreeNode.alignments (node : FixedTreeNode) (s : List Char)
    (orig rem : Nat) (cap : Option Nat) : Except Err (List SearchResult) :=
  alignmentsAux s.length node s orig rem cap

/-- Embeds `FixedTree`: root node, fixed width, and the
`sequence_name_table` dict as an association list in insertion order. -/
structure FixedTree : Type where
  root : FixedTreeNode
  width : Nat
  sequence_name_table : List (Nat × List Char)

/-- Embeds `FixedTree._get_id`: scan the table in insertion order for the
identifier and return its key; otherwise `val` ends up as the last key
visited (`0` when the table is empty) and `val+1` is bound to the
identifier. Returns the id together with the updated table. -/
def _get_id (tab : List (Nat × List Char)) (ident : List Char) :
    Nat × List (Nat × List Char) :=
  match tab.find? (fun p => p.2 = ident) with
  | some p => (p.1, tab)
  | none =>
    let val := tab.foldl (fun _ p => p.1) 0
    (val + 1, tab ++ [(val + 1, ident)])

/-- Embeds the body of the window loop of `FixedTree.add_sequence` for one
start offset `i`: insert the forward fragment with `(id, i, True)`, and if
`reverse` is set also insert its reverse complement with `(id, i, False)`. -/
def addWindow (width : Nat) (id : Nat) (seq : List Char) (reverse : Bool)
    (root : FixedTreeNode) (i : Nat) : FixedTreeNode :=
  let subseq := (seq.drop i).take width
  let root := root.insert subseq (id, i, true)
  if reverse then root.insert (reverse_complement subseq) (id, i, false)
  else root

/-- Embeds `FixedTree.add_sequence(sequence, reverse)` where the argument
is split into its `identifier` and residue string `seq`. The loop bound
`range(len(seq)-self.width+1)` is the natural-subtraction count
`len(seq)+1-width`, which is `0` whenever the sequence is shorter than the
width, exactly like the empty Python range. -/
def FixedTree.add_sequence (t : FixedTree) (identifier seq : List Char)
    (reverse : Bool) : FixedTree :=
  let idtab := _get_id t.sequence_name_table identifier
  let root := (List.range (seq.length + 1 - t.width)).foldl
    (addWindow t.width idtab.1 seq reverse) t.root
  { root := root, width := t.width, sequence_name_table := idtab.2 }

/-- Embeds `FixedTree.__init__(width)` with no genome argument: empty root,
empty identifier table. -/
def FixedTree.init (width : Nat) : FixedTree :=
  { root := FixedTreeNode.mk [] [], width := width, sequence_name_table := [] }

/-- A built index: `FixedTree(width)` followed by one `add_sequence` call
per `(identifier, residues, reverse)` triple, in order. Every claim about
"a built index" is stated over trees of this form. -/
def built (width : Nat) (inputs : List (List Char × List Char × Bool)) :
    FixedTree :=
  inputs.foldl (fun t p => t.add_sequence p.1 p.2.1 p.2.2) (FixedTree.init width)

/-- Key extraction under `alignments.sort(key=_extract_result_mismatch)`:
the first tuple component (mismatches consumed). -/
def _extract_result_mismatch (v : SearchResult) : Nat := v.1

/-- The final formatting comprehension of `FixedTree.alignments`:
`[(self.sequence_name_table[v[1]], v[2], v[3]) for v in alignments]`,
raising `KeyError` when an id is missing from the table. -/
def formatResults (tab : List (Nat × List Char)) :
    List SearchResult → Except Err (List (List Char × Nat × Bool))
  | [] => Except.ok []
  | v :: rest =>
    match (tab.find? (fun p => p.1 = v.2.1)).map (fun p => p.2) with
    | none => Except.error Err.keyError
    | some name =>
      match formatResults tab rest with
      | Except.error e => Except.error e
      | Except.ok l => Except.ok ((name, v.2.2.1, v.2.2.2) :: l)

/-- Embeds `FixedTree.alignments(sequence, mismatches, maximum_alignments,
best_alignments)`: width check, root search (cap suppressed when
`best_alignments` is set), stable ascending sort by mismatches consumed
when `best_alignments` is set (Python's stable `list.sort` is modelled by
insertion sort on the same key), truncation when the cap is truthy and
exceeded, and formatting through the identifier table. -/
def FixedTree.alignments (t : FixedTree) (s : List Char) (mismatches : Nat)
    (maximum_alignments : Option Nat) (best_alignments : Bool) :
    Except Err (List (List Char × Nat × Bool)) :=
  if t.width ≠ s.length then Except.error Err.invalidWidth
  else
    match t.root.alignments s mismatches mismatches
        (if best_alignments then none else maximum_alignments) with
    | Except.error e => Except.error e
    | Except.ok res =>
      let res := if best_alignments then
        List.insertionSort (fun a b => _extract_result_mismatch a ≤ _extract_result_mismatch b) res
        else res
      let res := if capTruthy maximum_alignments ∧
          maximum_alignments.getD 0 < res.length then
        res.take (maximum_alignments.getD 0) else res
      formatResults t.sequence_name_table res

instance : IsTotal SearchResult
    (fun a b => _extract_result_mismatch a ≤ _extract_result_mismatch b) :=
  ⟨fun a b => Nat.le_total a.1 b.1⟩

instance : IsTrans SearchResult
    (fun a b => _extract_result_mismatch a ≤ _extract_result_mismatch b) :=
  ⟨fun _ _ _ h1 h2 => Nat.le_trans h1 h2⟩

/-- Embeds `FixedTree.__contains__`: `len(self.alignments(sequence)) > 0`
with every optional argument at its default. -/
def FixedTree.contains (t : FixedTree) (s : List Char) : Except Err Bool :=
  match t.alignments s 0 none false with
  | Except.error e => Except.error e
  | Except.ok l => Except.ok (decide (0 < l.length))

deriving instance DecidableEq for Except

/- ### The binary codec (`store` / `load`)

The bz2 layer is a transparent transport and the `struct` integer formats
(`<I`, `?`) are fixed-width and self-delimiting, so the serialized stream is
modelled as a list of typed tokens: one token per packed `<I` integer, one
per packed `?` boolean, and one per payload byte of a packed `<{n}s` string
field. `struct.pack('<I', v)` raises for `v ≥ 2^32`, so the writers return
`Option` and refuse such values. String fields are kept at byte level
because the code packs `len(text)` (a character count) as the field length
but `text.encode('utf-8')` (a byte string) as the payload, and
`pack('<ns')` silently truncates or zero-pads the payload to `n` bytes —
the source of a real round-trip defect for non-ASCII identifiers. -/
inductive Tok : Type where
  | nat (n : Nat) : Tok
  | bool (b : Bool) : Tok
  | byte (b : Nat) : Tok
  deriving DecidableEq, Repr

/-- UTF-8 encoding of one character (standard scalar-value encoding,
1 to 4 bytes). -/
def utf8EncodeChar (c : Char) : List Nat :=
  let n := c.toNat
  if n < 0x80 then [n]
  else if n < 0x800 then [0xC0 + n / 0x40, 0x80 + n % 0x40]
  else if n < 0x10000 then
    [0xE0 + n / 0x1000, 0x80 + (n / 0x40) % 0x40, 0x80 + n % 0x40]
  else
    [0xF0 + n / 0x40000, 0x80 + (n / 0x1000) % 0x40, 0x80 + (n / 0x40) % 0x40,
     0x80 + n % 0x40]

/-- `text.encode('utf-8')` as a byte list. -/
def utf8Encode (s : List Char) : List Nat :=
  s.flatMap utf8EncodeChar

/-- UTF-8 decoding (`bytes.decode('utf-8')`), with `fuel ≥ length` of the
byte list; lead/continuation byte ranges are checked and malformed input is
rejected with `none`. -/
def utf8DecodeAux : Nat → List Nat → Option (List Char)
  | _, [] => some []
  | 0, _ :: _ => none
  | f + 1, b :: rest =>
    if b < 0x80 then
      (utf8DecodeAux f rest).map (fun cs => Char.ofNat b :: cs)
    else if b < 0xC0 then none
    else if b < 0xE0 then
      match rest with
      | b1 :: rest2 =>
        if 0x80 ≤ b1 ∧ b1 < 0xC0 then
          (utf8DecodeAux f rest2).map
            (fun cs => Char.ofNat ((b - 0xC0) * 0x40 + (b1 - 0x80)) :: cs)
        else none
      | [] => none
    else if b < 0xF0 then
      match rest with
      | b1 :: b2 :: rest2 =>
        if (0x80 ≤ b1 ∧ b1 < 0xC0) ∧ (0x80 ≤ b2 ∧ b2 < 0xC0) then
          (utf8DecodeAux f rest2).map
            (fun cs => Char.ofNat ((b - 0xE0) * 0x1000 + (b1 - 0x80) * 0x40
              + (b2 - 0x80)) :: cs)
        else none
      | _ => none
    else
      match rest with
      | b1 :: b2 :: b3 :: rest2 =>
        if (0x80 ≤ b1 ∧ b1 < 0xC0) ∧ (0x80 ≤ b2 ∧ b2 < 0xC0) ∧
            (0x80 ≤ b3 ∧ b3 < 0xC0) then
          (utf8DecodeAux f rest2).map
            (fun cs => Char.ofNat ((b - 0xF0) * 0x40000 + (b1 - 0x80) * 0x1000
              + (b2 - 0x80) * 0x40 + (b3 - 0x80)) :: cs)
        else none
      | _ => none

/-- `bytes.decode('utf-8')`. -/
def utf8Decode (bs : List Nat) : Option (List Char) :=
  utf8DecodeAux bs.length bs

/-- `struct.pack('<{n}s', data)`: exactly `n` bytes, the payload truncated
or zero-padded as needed. -/
def padTruncate (n : Nat) (bs : List Nat) : List Nat :=
  bs.take n ++ List.replicate (n - bs.length) 0

/-- The serialization of one string field:
`pack('<I', len(text))` followed by `pack('<{len(text)}s', text.encode('utf-8'))`.
Note the length is the character count while the payload is the UTF-8
byte sequence fitted to that count. -/
def packStr (s : List Char) : Option (List Tok) :=
  if s.length < 2 ^ 32 then
    some (Tok.nat s.length :: (padTruncate s.length (utf8Encode s)).map Tok.byte)
  else none

/-- The serialization of the `_alignments` list items:
`pack('<II?', *alignment)` for each record. -/
def packAligns : List AlignRecord → Option (List Tok)
  | [] => some []
  | (id, pos, st) :: rest =>
    if id < 2 ^ 32 ∧ pos < 2 ^ 32 then
      (packAligns rest).map
        (fun ts => Tok.nat id :: Tok.nat pos :: Tok.bool st :: ts)
    else none

/-- The `for label,node in self.edges.items()` loop of
`FixedTreeNode.store`, with the recursive call on the child supplied as
`recS`. -/
def storeEdges (recS : FixedTreeNode → Option (List Tok)) :
    List (List Char × FixedTreeNode) → Option (List Tok)
  | [] => some []
  | (L, c) :: rest =>
    match packStr L, recS c, storeEdges recS rest with
    | some ls, some cs, some rs => some (ls ++ cs ++ rs)
    | _, _, _ => none

/-- Embeds `FixedTreeNode.store`: alignment count and records, then edge
count and `(label, child)` pairs in insertion order. `fuel` bounds the
recursion depth; a built tree of width `W` has depth at most `W`, so the
wrapper `FixedTree.store` passes `width + 1`. -/
def storeNodeAux : Nat → FixedTreeNode → Option (List Tok)
  | 0, _ => none
  | f + 1, node =>
    if node.alignRecords.length < 2 ^ 32 ∧ node.edges.length < 2 ^ 32 then
      match packAligns node.alignRecords,
          storeEdges (storeNodeAux f) node.edges with
      | some asn, some es =>
        some (Tok.nat node.alignRecords.length :: asn
          ++ Tok.nat node.edges.length :: es)
      | _, _ => none
    else none

/-- The `for i in sorted(self.sequence_name_table.keys())` loop of
`FixedTree.store`: each identifier is written (length + UTF-8 payload) in
ascending key order; the keys themselves are not written. -/
def packTable : List (Nat × List Char) → Option (List Tok)
  | [] => some []
  | (_, name) :: rest =>
    match packStr name, packTable rest with
    | some ns, some rs => some (ns ++ rs)
    | _, _ => none

/-- Embeds `FixedTree.store` (the byte stream it writes; the
file-already-exists check concerns the filesystem, not the stream):
width and table size, the identifier table in ascending key order, then
the root node. -/
def FixedTree.store (t : FixedTree) : Option (List Tok) :=
  if t.width < 2 ^ 32 ∧ t.sequence_name_table.length < 2 ^ 32 then
    match packTable (List.insertionSort (fun a b => a.1 ≤ b.1)
        t.sequence_name_table),
        storeNodeAux (t.width + 1) t.root with
    | some tab, some root =>
      some (Tok.nat t.width :: Tok.nat t.sequence_name_table.length :: tab
        ++ root)
    | _, _ => none
  else none

/-- `_unpack_buffer('<I', buffer)`: read one packed integer. -/
def readNat : List Tok → Option (Nat × List Tok)
  | Tok.nat n :: rest => some (n, rest)
  | _ => none

/-- `_unpack_buffer('?', ...)`: read one packed boolean. -/
def readBool : List Tok → Option (Bool × List Tok)
  | Tok.bool b :: rest => some (b, rest)
  | _ => none

/-- Read exactly `n` payload bytes of a packed string field. -/
def readBytes : Nat → List Tok → Option (List Nat × List Tok)
  | 0, s => some ([], s)
  | n + 1, Tok.byte b :: rest =>
    match readBytes n rest with
    | some (bs, s) => some (b :: bs, s)
    | none => none
  | _ + 1, _ => none

/-- Read one string field: length, payload bytes, UTF-8 decode. -/
def readStr (s : List Tok) : Option (List Char × List Tok) :=
  match readNat s with
  | some (n, s1) =>
    match readBytes n s1 with
    | some (bs, s2) =>
      match utf8Decode bs with
      | some cs => some (cs, s2)
      | none => none
    | none => none
  | none => none

/-- The alignment-loading loop of `FixedTreeNode.load`: `count` records of
`(id, pos, strand)`. -/
def readAligns : Nat → List Tok → Option (List AlignRecord × List Tok)
  | 0, s => some ([], s)
  | n + 1, s =>
    match readNat s with
    | some (id, s1) =>
      match readNat s1 with
      | some (pos, s2) =>
        match readBool s2 with
        | some (st, s3) =>
          match readAligns n s3 with
          | some (rest, s4) => some ((id, pos, st) :: rest, s4)
          | none => none
        | none => none
      | none => none
    | none => none

/-- The edge-loading loop of `FixedTreeNode.load`: `count` edges, each a
label string followed by the recursively loaded child (supplied as
`recL`); edges enter the dict in read order. -/
def loadEdges (recL : List Tok → Option (FixedTreeNode × List Tok)) :
    Nat → List Tok → Option (List (List Char × FixedTreeNode) × List Tok)
  | 0, s => some ([], s)
  | n + 1, s =>
    match readStr s with
    | some (label, s1) =>
      match recL s1 with
      | some (child, s2) =>
        match loadEdges recL n s2 with
        | some (rest, s3) => some ((label, child) :: rest, s3)
        | none => none
      | none => none
    | none => none

/-- Embeds `FixedTreeNode.load` with a recursion-depth bound `fuel`
(matched by `FixedTree.load` to the declared width, mirroring the fuel
used by `store`; well-formed streams of built trees never exhaust it). -/
def loadNodeAux : Nat → List Tok → Option (FixedTreeNode × List Tok)
  | 0, _ => none
  | f + 1, s =>
    match readNat s with
    | some (na, s1) =>
      match readAligns na s1 with
      | some (aligns, s2) =>
        match readNat s2 with
        | some (ne, s3) =>
          match loadEdges (loadNodeAux f) ne s3 with
          | some (edges, s4) => some (FixedTreeNode.mk edges aligns, s4)
          | none => none
        | none => none
      | none => none
    | none => none

/-- The table-loading loop of `FixedTree.load`:
`for i in range(1, num_seqs+1): ... newtree.sequence_name_table[i] = name`.
`k` is the next key to assign. -/
def readTable : Nat → Nat → List Tok →
    Option (List (Nat × List Char) × List Tok)
  | _, 0, s => some ([], s)
  | k, n + 1, s =>
    match readStr s with
    | some (name, s1) =>
      match readTable (k + 1) n s1 with
      | some (tab, s2) => some ((k, name) :: tab, s2)
      | none => none
    | none => none

/-- Embeds `FixedTree.load`: width, table size, table entries keyed
`1..num_seqs` in read order, then the root node. Returns the tree together
with the unconsumed remainder of the stream. -/
def FixedTree.load (stream : List Tok) : Option (FixedTree × List Tok) :=
  match readNat stream with
  | some (width, s1) =>
    match readNat s1 with
    | some (numSeqs, s2) =>
      match readTable 1 numSeqs s2 with
      | some (tab, s3) =>
        match loadNodeAux (width + 1) s3 with
        | some (root, s4) =>
          some ({ root := root, width := width, sequence_name_table := tab }, s4)
        | none => none
      | none => none
    | none => none
  | none => none

/- ### Structural predicates used by the specification claims -/

/-- Height/width discipline of a node reached after consuming all but `r`
characters of a width-`W` fragment: every outgoing edge label is non-empty
and no longer than `r`, and the child obeys the discipline for the
remaining length. Built trees satisfy this at the root with `r = width`. -/
inductive HeightLE : FixedTreeNode → Nat → Prop where
  | mk {edges : List (List Char × FixedTreeNode)} {aligns : List AlignRecord}
      {r : Nat} :
      (∀ L c, (L, c) ∈ edges → L ≠ []) →
      (∀ L c, (L, c) ∈ edges → L.length ≤ r) →
      (∀ L c, (L, c) ∈ edges → HeightLE c (r - L.length)) →
      HeightLE (.mk edges aligns) r

/-- The edge-uncommonness invariant, at this node and recursively at every
descendant: outgoing labels are non-empty and pairwise share no
common prefix of nonzero length (`greatest_common_prefix = 0`). -/
inductive Uncommon : FixedTreeNode → Prop where
  | mk {edges : List (List Char × FixedTreeNode)} {aligns : List AlignRecord} :
      List.Pairwise (fun e1 e2 => gcp e1.1 e2.1 = 0) edges →
      (∀ L c, (L, c) ∈ edges → L ≠ []) →
      (∀ L c, (L, c) ∈ edges → Uncommon c) →
      Uncommon (.mk edges aligns)

/-- Every alignment record stored anywhere in the tree has an id satisfying
`P` (instantiated with membership in the identifier table). -/
inductive NodeIds (P : Nat → Prop) : FixedTreeNode → Prop where
  | mk {edges : List (List Char × FixedTreeNode)} {aligns : List AlignRecord} :
      (∀ a ∈ aligns, P a.1) →
      (∀ L c, (L, c) ∈ edges → NodeIds P c) →
      NodeIds P (.mk edges aligns)

/-- `EntryAt node frag a`: the record `a` is stored at the node reached
from `node` by consuming exactly `frag` (the concatenation of edge labels
along a root-to-record path). -/
inductive EntryAt : FixedTreeNode → List Char → AlignRecord → Prop where
  | here {edges : List (List Char × FixedTreeNode)} {aligns : List AlignRecord}
      {a : AlignRecord} :
      a ∈ aligns → EntryAt (.mk edges aligns) [] a
  | step {edges : List (List Char × FixedTreeNode)} {aligns : List AlignRecord}
      {L frag : List Char} {c : FixedTreeNode} {a : AlignRecord} :
      (L, c) ∈ edges → EntryAt c frag a →
      EntryAt (.mk edges aligns) (L ++ frag) a

/-- A string of single-byte (ASCII) characters: its UTF-8 encoding has one
byte per character, so the codec's character-count/byte-count confusion is
harmless. -/
def StrAscii (s : List Char) : Prop := ∀ c ∈ s, c.toNat < 128

/-- All edge labels in the tree are ASCII. -/
inductive NodeAscii : FixedTreeNode → Prop where
  | mk {edges : List (List Char × FixedTreeNode)} {aligns : List AlignRecord} :
      (∀ L c, (L, c) ∈ edges → StrAscii L) →
      (∀ L c, (L, c) ∈ edges → NodeAscii c) →
      NodeAscii (.mk edges aligns)

/-- All identifiers and residue strings of a build-input list are ASCII. -/
def InputsAscii (inputs : List (List Char × List Char × Bool)) : Prop :=
  ∀ p ∈ inputs, StrAscii p.1 ∧ StrAscii p.2.1

/- ### Basic facts about the string utilities -/

theorem gcp_le_left : ∀ a b : List Char, gcp a b ≤ a.length := by
  intro a
  induction a with
  | nil => intro b; cases b <;> simp [gcp]
  | cons x xs ih =>
    intro b
    cases b with
    | nil => simp [gcp]
    | cons y ys =>
      by_cases h : x = y <;> simp [gcp, h]
      exact ih ys

theorem gcp_comm : ∀ a b : List Char, gcp a b = gcp b a := by
  intro a
  induction a with
  | nil => intro b; cases b <;> simp [gcp]
  | cons x xs ih =>
    intro b
    cases b with
    | nil => simp [gcp]
    | cons y ys =>
      by_cases h : x = y
      · subst h; simp [gcp, ih ys]
      · have h2 : ¬ y = x := fun hh => h hh.symm
        simp [gcp, h, h2]

theorem prefix_of_gcp_eq_length : ∀ a b : List Char, gcp a b = a.length → a <+: b := by
  intro a
  induction a with
  | nil => intro b _; exact List.nil_prefix
  | cons x xs ih =>
    intro b h
    cases b with
    | nil => simp [gcp] at h
    | cons y ys =>
      by_cases hxy : x = y
      · subst hxy
        simp [gcp] at h
        exact (List.prefix_cons_inj x).mpr (ih ys h)
      · simp [gcp, hxy] at h

theorem gcp_eq_length_of_pref : ∀ a b : List Char, a <+: b → gcp a b = a.length := by
  intro a
  induction a with
  | nil => intro b _; cases b <;> simp [gcp]
  | cons x xs ih =>
    intro b h
    cases b with
    | nil => exact absurd (List.eq_nil_of_prefix_nil h) (by simp)
    | cons y ys =>
      obtain ⟨t, ht⟩ := h
      simp only [List.cons_append] at ht
      injection ht with hxy htail
      subst hxy
      simp [gcp, ih ys ⟨t, htail⟩]

theorem gcp_pos_of_pref (a b : List Char) (hne : a ≠ []) (h : a <+: b) :
    0 < gcp a b := by
  rw [gcp_eq_length_of_pref a b h]
  exact List.length_pos.mpr hne

theorem gcp_lt_length_of_not_prefix (a b : List Char) (h : ¬ a <+: b) :
    gcp a b < a.length := by
  rcases Nat.lt_or_ge (gcp a b) a.length with hlt | hge
  · exact hlt
  · exact absurd (prefix_of_gcp_eq_length a b (Nat.le_antisymm (gcp_le_left a b) hge)) h

theorem take_gcp_eq : ∀ a b : List Char, a.take (gcp a b) = b.take (gcp a b) := by
  intro a
  induction a with
  | nil => intro b; cases b <;> simp [gcp]
  | cons x xs ih =>
    intro b
    cases b with
    | nil => simp [gcp]
    | cons y ys =>
      by_cases h : x = y
      · subst h; simp [gcp, ih ys]
      · simp [gcp, h]

theorem gcp_nil_right (a : List Char) : gcp a [] = 0 := by
  cases a <;> simp [gcp]

theorem isPrefixOf_iff {l1 l2 : List Char} : l1.isPrefixOf l2 = true ↔ l1 <+: l2 :=
  List.isPrefixOf_iff_prefix

theorem pref_iff_eq_take {l1 l2 : List Char} :
    l1 <+: l2 ↔ l1 = l2.take l1.length :=
  List.prefix_iff_eq_take

theorem gcp_zero_take (k m : List Char) (g : Nat) (h : gcp k m = 0) :
    gcp k (m.take g) = 0 := by
  cases k with
  | nil => cases m.take g <;> simp [gcp]
  | cons x xs =>
    cases m with
    | nil => simp [gcp_nil_right]
    | cons y ys =>
      cases g with
      | zero => simp [gcp]
      | succ g2 =>
        by_cases hxy : x = y
        · simp [gcp, hxy] at h
        · simp [gcp, hxy]

theorem hammingCount_self : ∀ a : List Char, hammingCount a a = 0 := by
  intro a
  induction a with
  | nil => simp [hammingCount]
  | cons x xs ih =>
    simpa [hammingCount, List.countP_cons] using ih

theorem hammingCount_append (a b s : List Char) (h : a.length ≤ s.length) :
    hammingCount (a ++ b) s =
      hammingCount a (s.take a.length) + hammingCount b (s.drop a.length) := by
  induction a generalizing s with
  | nil => simp [hammingCount]
  | cons x xs ih =>
    cases s with
    | nil => simp at h
    | cons y ys =>
      simp only [List.length_cons, Nat.add_le_add_iff_right] at h
      simp [hammingCount, List.zip_cons_cons, List.countP_cons] at *
      rw [ih ys h]
      ring

theorem reverse_complement_length (s : List Char) :
    (reverse_complement s).length = s.length := by
  simp [reverse_complement]

theorem complementChar_ascii (c : Char) (h : c.toNat < 128) :
    (complementChar c).toNat < 128 := by
  unfold complementChar
  split_ifs <;> first | decide | exact h

theorem reverse_complement_ascii (s : List Char) (h : StrAscii s) :
    StrAscii (reverse_complement s) := by
  intro c hc
  simp [reverse_complement] at hc
  obtain ⟨d, hd, rfl⟩ := hc
  exact complementChar_ascii d (h d hd)

theorem strAscii_take (s : List Char) (n : Nat) (h : StrAscii s) :
    StrAscii (s.take n) := fun c hc => h c (List.mem_of_mem_take hc)

theorem strAscii_drop (s : List Char) (n : Nat) (h : StrAscii s) :
    StrAscii (s.drop n) := fun c hc => h c (List.mem_of_mem_drop hc)

/- ### Preservation of the structural predicates under insertion -/

theorem heightLE_insertScan
    (recI : FixedTreeNode → List Char → FixedTreeNode) (s : List Char)
    (a : AlignRecord)
    (hrec : ∀ c s2 r2, HeightLE c r2 → s2.length ≤ r2 → HeightLE (recI c s2) r2) :
    ∀ (es : List (List Char × FixedTreeNode)) (r : Nat),
      (∀ L c, (L, c) ∈ es → L ≠ [] ∧ L.length ≤ r ∧ HeightLE c (r - L.length)) →
      s ≠ [] → s.length ≤ r →
      ∀ L c, (L, c) ∈ insertScan recI s a es →
        L ≠ [] ∧ L.length ≤ r ∧ HeightLE c (r - L.length) := by
  intro es
  induction es with
  | nil =>
    intro r _ hs hsr L c hmem
    simp [insertScan] at hmem
    obtain ⟨rfl, rfl⟩ := hmem
    exact ⟨hs, hsr, HeightLE.mk (by simp) (by simp) (by simp)⟩
  | cons e rest ih =>
    intro r hes hs hsr L c hmem
    obtain ⟨L0, c0⟩ := e
    have h0 := hes L0 c0 (by simp)
    by_cases hp : L0.isPrefixOf s
    · simp only [insertScan, hp, if_pos] at hmem
      rcases List.mem_cons.mp hmem with heq | hmem2
      · injection heq with e1 e2
        subst e1; subst e2
        refine ⟨h0.1, h0.2.1, hrec c0 _ _ h0.2.2 ?_⟩
        rw [List.length_drop]
        exact Nat.sub_le_sub_right hsr _
      · exact hes L c (by simp [hmem2])
    · have hpre : ¬ L0 <+: s := fun hh => hp (isPrefixOf_iff.mpr hh)
      by_cases hg : 0 < gcp L0 s
      · simp only [insertScan, hp, hg, if_neg, if_pos, Bool.false_eq_true] at hmem
        rcases List.mem_append.mp hmem with hmem2 | hmem2
        · exact hes L c (by simp [hmem2])
        · simp at hmem2
          obtain ⟨rfl, rfl⟩ := hmem2
          have hgle : gcp L0 s ≤ L0.length := gcp_le_left L0 s
          have hglt : gcp L0 s < L0.length := gcp_lt_length_of_not_prefix L0 s hpre
          have hgs : gcp L0 s ≤ s.length := by
            have := gcp_le_left s L0
            rw [gcp_comm] at this
            exact this
          have htklen : (L0.take (gcp L0 s)).length = gcp L0 s := by
            simp [List.length_take, Nat.min_eq_left hgle]
          refine ⟨?_, ?_, ?_⟩
          · intro hnil
            have := congrArg List.length hnil
            simp [htklen] at this
            omega
          · rw [htklen]; exact Nat.le_trans hgle h0.2.1
          · rw [htklen]
            refine hrec _ _ _ ?_ ?_
            · refine HeightLE.mk ?_ ?_ ?_
              · intro L2 c2 hm; simp at hm
                obtain ⟨rfl, rfl⟩ := hm
                intro hnil
                have := congrArg List.length hnil
                simp [List.length_drop] at this
                omega
              · intro L2 c2 hm; simp at hm
                obtain ⟨rfl, rfl⟩ := hm
                simp [List.length_drop]
                omega
              · intro L2 c2 hm; simp at hm
                obtain ⟨rfl, rfl⟩ := hm
                have hfix : r - gcp L0 s - (L0.drop (gcp L0 s)).length = r - L0.length := by
                  simp [List.length_drop]
                  omega
                rw [hfix]
                exact h0.2.2
            · simp [List.length_drop]
              omega
      · simp only [insertScan, hp, hg, if_neg, Bool.false_eq_true] at hmem
        rcases List.mem_cons.mp hmem with heq | hmem2
        · injection heq with e1 e2
          subst e1; subst e2
          exact h0
        · exact ih r (fun L2 c2 hm => hes L2 c2 (by simp [hm])) hs hsr L c hmem2

theorem heightLE_insertAux :
    ∀ (fuel : Nat) (node : FixedTreeNode) (s : List Char) (a : AlignRecord)
      (r : Nat), HeightLE node r → s.length ≤ r →
      HeightLE (insertAux fuel node s a) r := by
  intro fuel
  induction fuel with
  | zero =>
    intro node s a r h hsr
    cases s with
    | nil =>
      cases node with
      | mk es as =>
        cases h with
        | mk h1 h2 h3 => exact HeightLE.mk h1 h2 h3
    | cons x xs => exact h
  | succ f ih =>
    intro node s a r h hsr
    cases s with
    | nil =>
      cases node with
      | mk es as =>
        cases h with
        | mk h1 h2 h3 => exact HeightLE.mk h1 h2 h3
    | cons x xs =>
      cases node with
      | mk es as =>
        cases h with
        | mk h1 h2 h3 =>
          refine HeightLE.mk ?_ ?_ ?_ <;>
          · intro L c hm
            have := heightLE_insertScan (fun c2 s2 => insertAux f c2 s2 a)
              (x :: xs) a (fun c2 s2 r2 hc2 hs2 => ih c2 s2 a r2 hc2 hs2) es r
              (fun L2 c2 hm2 => ⟨h1 L2 c2 hm2, h2 L2 c2 hm2, h3 L2 c2 hm2⟩)
              (by simp) hsr L c hm
            first
            | exact this.1
            | exact this.2.1
            | exact this.2.2

/- ### Branch shape lemmas for the insertion scan -/

theorem insertScan_nil (recI : FixedTreeNode → List Char → FixedTreeNode)
    (s : List Char) (a : AlignRecord) :
    insertScan recI s a [] = [(s, FixedTreeNode.mk [] [a])] := rfl

theorem insertScan_cons_pref (recI : FixedTreeNode → List Char → FixedTreeNode)
    (s : List Char) (a : AlignRecord) (L : List Char) (c : FixedTreeNode)
    (rest : List (List Char × FixedTreeNode)) (h : L.isPrefixOf s) :
    insertScan recI s a ((L, c) :: rest) =
      (L, recI c (s.drop L.length)) :: rest := by
  simp [insertScan, h]

theorem insertScan_cons_split (recI : FixedTreeNode → List Char → FixedTreeNode)
    (s : List Char) (a : AlignRecord) (L : List Char) (c : FixedTreeNode)
    (rest : List (List Char × FixedTreeNode)) (h1 : ¬ L.isPrefixOf s)
    (h2 : 0 < gcp L s) :
    insertScan recI s a ((L, c) :: rest) =
      rest ++ [(L.take (gcp L s),
        recI (FixedTreeNode.mk [(L.drop (gcp L s), c)] []) (s.drop (gcp L s)))] := by
  simp [insertScan, h1, h2]

theorem insertScan_cons_skip (recI : FixedTreeNode → List Char → FixedTreeNode)
    (s : List Char) (a : AlignRecord) (L : List Char) (c : FixedTreeNode)
    (rest : List (List Char × FixedTreeNode)) (h1 : ¬ L.isPrefixOf s)
    (h2 : ¬ 0 < gcp L s) :
    insertScan recI s a ((L, c) :: rest) = (L, c) :: insertScan recI s a rest := by
  simp [insertScan, h1, h2]

theorem insertScan_gcp_zero
    (recI : FixedTreeNode → List Char → FixedTreeNode) (s : List Char)
    (a : AlignRecord) :
    ∀ (es : List (List Char × FixedTreeNode)) (K : List Char),
      gcp K s = 0 → (∀ e ∈ es, gcp K e.1 = 0) →
      ∀ e2 ∈ insertScan recI s a es, gcp K e2.1 = 0 := by
  intro es
  induction es with
  | nil =>
    intro K hks _ e2 hmem
    rw [insertScan_nil] at hmem
    rcases List.mem_singleton.mp hmem with rfl
    simpa using hks
  | cons e rest ih =>
    intro K hks hes e2 hmem
    obtain ⟨L0, c0⟩ := e
    by_cases hp : L0.isPrefixOf s
    · rw [insertScan_cons_pref recI s a L0 c0 rest hp] at hmem
      rcases List.mem_cons.mp hmem with rfl | hmem2
      · simpa using hes (L0, c0) (by simp)
      · exact hes e2 (by simp [hmem2])
    · by_cases hg : 0 < gcp L0 s
      · rw [insertScan_cons_split recI s a L0 c0 rest hp hg] at hmem
        rcases List.mem_append.mp hmem with hmem2 | hmem2
        · exact hes e2 (by simp [hmem2])
        · rcases List.mem_singleton.mp hmem2 with rfl
          have : gcp K L0 = 0 := by simpa using hes (L0, c0) (by simp)
          simpa using gcp_zero_take K L0 (gcp L0 s) this
      · rw [insertScan_cons_skip recI s a L0 c0 rest hp hg] at hmem
        rcases List.mem_cons.mp hmem with rfl | hmem2
        · simpa using hes (L0, c0) (by simp)
        · exact ih K hks (fun e3 hm => hes e3 (by simp [hm])) e2 hmem2

theorem uncommon_insertScan
    (recI : FixedTreeNode → List Char → FixedTreeNode) (s : List Char)
    (a : AlignRecord)
    (hrec : ∀ c s2, Uncommon c → Uncommon (recI c s2)) :
    ∀ (es : List (List Char × FixedTreeNode)),
      List.Pairwise (fun e1 e2 => gcp e1.1 e2.1 = 0) es →
      (∀ e ∈ es, e.1 ≠ []) → (∀ e ∈ es, Uncommon e.2) → s ≠ [] →
      List.Pairwise (fun e1 e2 => gcp e1.1 e2.1 = 0) (insertScan recI s a es) ∧
      (∀ e ∈ insertScan recI s a es, e.1 ≠ []) ∧
      (∀ e ∈ insertScan recI s a es, Uncommon e.2) := by
  intro es
  induction es with
  | nil =>
    intro _ _ _ hs
    rw [insertScan_nil]
    refine ⟨by simp, ?_, ?_⟩
    · intro e hmem
      rcases List.mem_singleton.mp hmem with rfl
      simpa using hs
    · intro e hmem
      rcases List.mem_singleton.mp hmem with rfl
      exact Uncommon.mk (by simp) (by simp) (by simp)
  | cons e0 rest ih =>
    intro hpw hne hun hs
    obtain ⟨L0, c0⟩ := e0
    rw [List.pairwise_cons] at hpw
    by_cases hp : L0.isPrefixOf s
    · rw [insertScan_cons_pref recI s a L0 c0 rest hp]
      refine ⟨List.pairwise_cons.mpr ⟨fun e2 hm => hpw.1 e2 hm, hpw.2⟩, ?_, ?_⟩
      · intro e hmem
        rcases List.mem_cons.mp hmem with rfl | hmem2
        · simpa using hne (L0, c0) (by simp)
        · exact hne e (by simp [hmem2])
      · intro e hmem
        rcases List.mem_cons.mp hmem with rfl | hmem2
        · exact hrec c0 _ (by simpa using hun (L0, c0) (by simp))
        · exact hun e (by simp [hmem2])
    · have hpre : ¬ L0 <+: s := fun hh => hp (isPrefixOf_iff.mpr hh)
      by_cases hg : 0 < gcp L0 s
      · rw [insertScan_cons_split recI s a L0 c0 rest hp hg]
        have hglt : gcp L0 s < L0.length := gcp_lt_length_of_not_prefix L0 s hpre
        refine ⟨?_, ?_, ?_⟩
        · rw [List.pairwise_append]
          refine ⟨hpw.2, by simp, ?_⟩
          intro e1 hm1 e2 hm2
          rcases List.mem_singleton.mp hm2 with rfl
          have h2 : gcp e1.1 L0 = 0 := by rw [gcp_comm]; exact hpw.1 e1 hm1
          simpa [gcp_comm (List.take (gcp L0 s) L0) e1.1] using
            gcp_zero_take e1.1 L0 (gcp L0 s) h2
        · intro e hmem
          rcases List.mem_append.mp hmem with hmem2 | hmem2
          · exact hne e (by simp [hmem2])
          · rcases List.mem_singleton.mp hmem2 with rfl
            simp only [ne_eq]
            intro hnil
            rcases List.take_eq_nil_iff.mp hnil with h | h
            · omega
            · rw [h] at hglt
              simp at hglt
        · intro e hmem
          rcases List.mem_append.mp hmem with hmem2 | hmem2
          · exact hun e (by simp [hmem2])
          · rcases List.mem_singleton.mp hmem2 with rfl
            refine hrec _ _ (Uncommon.mk (by simp) ?_ ?_)
            · intro La ca hm
              have h2 := List.mem_singleton.mp hm
              injection h2 with he1 he2
              rw [he1]
              intro hnil
              have := List.drop_eq_nil_iff.mp hnil
              omega
            · intro La ca hm
              have h2 := List.mem_singleton.mp hm
              injection h2 with he1 he2
              rw [he2]
              simpa using hun (L0, c0) (by simp)
      · rw [insertScan_cons_skip recI s a L0 c0 rest hp hg]
        have hg0 : gcp L0 s = 0 := Nat.eq_zero_of_not_pos hg
        have tail := ih hpw.2 (fun e3 hm => hne e3 (by simp [hm]))
          (fun e3 hm => hun e3 (by simp [hm])) hs
        refine ⟨List.pairwise_cons.mpr ⟨?_, tail.1⟩, ?_, ?_⟩
        · intro e2 hm
          exact insertScan_gcp_zero recI s a rest L0 hg0
            (fun e3 hm3 => hpw.1 e3 hm3) e2 hm
        · intro e hmem
          rcases List.mem_cons.mp hmem with rfl | hmem2
          · simpa using hne (L0, c0) (by simp)
          · exact tail.2.1 e hmem2
        · intro e hmem
          rcases List.mem_cons.mp hmem with rfl | hmem2
          · simpa using hun (L0, c0) (by simp)
          · exact tail.2.2 e hmem2

theorem uncommon_insertAux :
    ∀ (fuel : Nat) (node : FixedTreeNode) (s : List Char) (a : AlignRecord),
      Uncommon node → Uncommon (insertAux fuel node s a) := by
  intro fuel
  induction fuel with
  | zero =>
    intro node s a h
    cases s with
    | nil =>
      cases node with
      | mk es as =>
        cases h with
        | mk h1 h2 h3 => exact Uncommon.mk h1 h2 h3
    | cons x xs => exact h
  | succ f ih =>
    intro node s a h
    cases s with
    | nil =>
      cases node with
      | mk es as =>
        cases h with
        | mk h1 h2 h3 => exact Uncommon.mk h1 h2 h3
    | cons x xs =>
      cases node with
      | mk es as =>
        cases h with
        | mk h1 h2 h3 =>
          have := uncommon_insertScan (fun c2 s2 => insertAux f c2 s2 a)
            (x :: xs) a (fun c2 s2 hc2 => ih c2 s2 a hc2) es h1
            (fun e hm => h2 e.1 e.2 (by simpa using hm))
            (fun e hm => h3 e.1 e.2 (by simpa using hm)) (by simp)
          exact Uncommon.mk this.1 (fun L c hm => this.2.1 (L, c) hm)
            (fun L c hm => this.2.2 (L, c) hm)

theorem nodeIds_insertScan (P : Nat → Prop)
    (recI : FixedTreeNode → List Char → FixedTreeNode) (s : List Char)
    (a : AlignRecord)
    (hrec : ∀ c s2, NodeIds P c → NodeIds P (recI c s2)) (hPa : P a.1) :
    ∀ (es : List (List Char × FixedTreeNode)),
      (∀ e ∈ es, NodeIds P e.2) →
      ∀ e2 ∈ insertScan recI s a es, NodeIds P e2.2 := by
  intro es
  induction es with
  | nil =>
    intro _ e2 hmem
    rw [insertScan_nil] at hmem
    rcases List.mem_singleton.mp hmem with rfl
    exact NodeIds.mk (by simpa using hPa) (by simp)
  | cons e0 rest ih =>
    intro hes e2 hmem
    obtain ⟨L0, c0⟩ := e0
    by_cases hp : L0.isPrefixOf s
    · rw [insertScan_cons_pref recI s a L0 c0 rest hp] at hmem
      rcases List.mem_cons.mp hmem with rfl | hmem2
      · exact hrec c0 _ (by simpa using hes (L0, c0) (by simp))
      · exact hes e2 (by simp [hmem2])
    · by_cases hg : 0 < gcp L0 s
      · rw [insertScan_cons_split recI s a L0 c0 rest hp hg] at hmem
        rcases List.mem_append.mp hmem with hmem2 | hmem2
        · exact hes e2 (by simp [hmem2])
        · rcases List.mem_singleton.mp hmem2 with rfl
          refine hrec _ _ (NodeIds.mk (by simp) ?_)
          intro La ca hm
          have h2 := List.mem_singleton.mp hm
          injection h2 with he1 he2
          rw [he2]
          simpa using hes (L0, c0) (by simp)
      · rw [insertScan_cons_skip recI s a L0 c0 rest hp hg] at hmem
        rcases List.mem_cons.mp hmem with rfl | hmem2
        · simpa using hes (L0, c0) (by simp)
        · exact ih (fun e3 hm => hes e3 (by simp [hm])) e2 hmem2

theorem nodeIds_insertAux (P : Nat → Prop) :
    ∀ (fuel : Nat) (node : FixedTreeNode) (s : List Char) (a : AlignRecord),
      NodeIds P node → P a.1 → NodeIds P (insertAux fuel node s a) := by
  intro fuel
  induction fuel with
  | zero =>
    intro node s a h hPa
    cases s with
    | nil =>
      cases node with
      | mk es as =>
        cases h with
        | mk h1 h2 =>
          refine NodeIds.mk ?_ h2
          intro b hb
          rcases List.mem_append.mp hb with hb2 | hb2
          · exact h1 b hb2
          · rcases List.mem_singleton.mp hb2 with rfl
            exact hPa
    | cons x xs => exact h
  | succ f ih =>
    intro node s a h hPa
    cases s with
    | nil =>
      cases node with
      | mk es as =>
        cases h with
        | mk h1 h2 =>
          refine NodeIds.mk ?_ h2
          intro b hb
          rcases List.mem_append.mp hb with hb2 | hb2
          · exact h1 b hb2
          · rcases List.mem_singleton.mp hb2 with rfl
            exact hPa
    | cons x xs =>
      cases node with
      | mk es as =>
        cases h with
        | mk h1 h2 =>
          refine NodeIds.mk h1 ?_
          intro L c hm
          have := nodeIds_insertScan P (fun c2 s2 => insertAux f c2 s2 a)
            (x :: xs) a (fun c2 s2 hc2 => ih c2 s2 a hc2 hPa) hPa es
            (fun e hm2 => h2 e.1 e.2 (by simpa using hm2)) (L, c) hm
          exact this

theorem nodeAscii_insertScan
    (recI : FixedTreeNode → List Char → FixedTreeNode) (s : List Char)
    (a : AlignRecord) (hsA : StrAscii s)
    (hrec : ∀ c n, NodeAscii c → NodeAscii (recI c (s.drop n))) :
    ∀ (es : List (List Char × FixedTreeNode)),
      (∀ e ∈ es, StrAscii e.1) → (∀ e ∈ es, NodeAscii e.2) →
      (∀ e2 ∈ insertScan recI s a es, StrAscii e2.1) ∧
      (∀ e2 ∈ insertScan recI s a es, NodeAscii e2.2) := by
  intro es
  induction es with
  | nil =>
    intro _ _
    rw [insertScan_nil]
    constructor
    · intro e2 hmem
      rcases List.mem_singleton.mp hmem with rfl
      exact hsA
    · intro e2 hmem
      rcases List.mem_singleton.mp hmem with rfl
      exact NodeAscii.mk (by simp) (by simp)
  | cons e0 rest ih =>
    intro hlab hch
    obtain ⟨L0, c0⟩ := e0
    by_cases hp : L0.isPrefixOf s
    · rw [insertScan_cons_pref recI s a L0 c0 rest hp]
      constructor
      · intro e2 hmem
        rcases List.mem_cons.mp hmem with rfl | hmem2
        · simpa using hlab (L0, c0) (by simp)
        · exact hlab e2 (by simp [hmem2])
      · intro e2 hmem
        rcases List.mem_cons.mp hmem with rfl | hmem2
        · exact hrec c0 _ (by simpa using hch (L0, c0) (by simp))
        · exact hch e2 (by simp [hmem2])
    · by_cases hg : 0 < gcp L0 s
      · rw [insertScan_cons_split recI s a L0 c0 rest hp hg]
        constructor
        · intro e2 hmem
          rcases List.mem_append.mp hmem with hmem2 | hmem2
          · exact hlab e2 (by simp [hmem2])
          · rcases List.mem_singleton.mp hmem2 with rfl
            exact strAscii_take L0 (gcp L0 s) (by simpa using hlab (L0, c0) (by simp))
        · intro e2 hmem
          rcases List.mem_append.mp hmem with hmem2 | hmem2
          · exact hch e2 (by simp [hmem2])
          · rcases List.mem_singleton.mp hmem2 with rfl
            refine hrec _ _ (NodeAscii.mk ?_ ?_)
            · intro La ca hm
              have h2 := List.mem_singleton.mp hm
              injection h2 with he1 he2
              rw [he1]
              exact strAscii_drop L0 (gcp L0 s) (by simpa using hlab (L0, c0) (by simp))
            · intro La ca hm
              have h2 := List.mem_singleton.mp hm
              injection h2 with he1 he2
              rw [he2]
              simpa using hch (L0, c0) (by simp)
      · rw [insertScan_cons_skip recI s a L0 c0 rest hp hg]
        have tail := ih (fun e3 hm => hlab e3 (by simp [hm]))
          (fun e3 hm => hch e3 (by simp [hm]))
        constructor
        · intro e2 hmem
          rcases List.mem_cons.mp hmem with rfl | hmem2
          · simpa using hlab (L0, c0) (by simp)
          · exact tail.1 e2 hmem2
        · intro e2 hmem
          rcases List.mem_cons.mp hmem with rfl | hmem2
          · simpa using hch (L0, c0) (by simp)
          · exact tail.2 e2 hmem2

theorem nodeAscii_insertAux :
    ∀ (fuel : Nat) (node : FixedTreeNode) (s : List Char) (a : AlignRecord),
      NodeAscii node → StrAscii s → NodeAscii (insertAux fuel node s a) := by
  intro fuel
  induction fuel with
  | zero =>
    intro node s a h hsA
    cases s with
    | nil =>
      cases node with
      | mk es as =>
        cases h with
        | mk h1 h2 => exact NodeAscii.mk h1 h2
    | cons x xs => exact h
  | succ f ih =>
    intro node s a h hsA
    cases s with
    | nil =>
      cases node with
      | mk es as =>
        cases h with
        | mk h1 h2 => exact NodeAscii.mk h1 h2
    | cons x xs =>
      cases node with
      | mk es as =>
        cases h with
        | mk h1 h2 =>
          have := nodeAscii_insertScan (fun c2 s2 => insertAux f c2 s2 a)
            (x :: xs) a hsA
            (fun c2 n hc2 => ih c2 ((x :: xs).drop n) a hc2
              (strAscii_drop (x :: xs) n hsA)) es
            (fun e hm => h1 e.1 e.2 (by simpa using hm))
            (fun e hm => h2 e.1 e.2 (by simpa using hm))
          exact NodeAscii.mk (fun L c hm => this.1 (L, c) hm)
            (fun L c hm => this.2 (L, c) hm)

theorem insertAux_alignRecords (fuel : Nat) (node : FixedTreeNode)
    (x : Char) (xs : List Char) (a : AlignRecord) :
    (insertAux fuel node (x :: xs) a).alignRecords = node.alignRecords := by
  cases fuel <;> cases node <;> simp [insertAux, FixedTreeNode.alignRecords]

/- ### Inserted records are reachable, and insertion preserves old records -/

theorem entryAt_insertScanMain
    (recI : FixedTreeNode → List Char → FixedTreeNode) (s : List Char)
    (a : AlignRecord) (hs : s ≠ []) :
    ∀ (es : List (List Char × FixedTreeNode)) (r : Nat),
      (∀ L c, (L, c) ∈ es → L ≠ []) →
      (∀ L c, (L, c) ∈ es → L.length ≤ r) →
      (∀ L c, (L, c) ∈ es → HeightLE c (r - L.length)) →
      s.length ≤ r →
      (∀ c s2 r2, HeightLE c r2 → s2.length ≤ r2 → s2.length + 1 ≤ s.length →
        EntryAt (recI c s2) s2 a) →
      ∃ L2 c2 frag, (L2, c2) ∈ insertScan recI s a es ∧ s = L2 ++ frag ∧
        EntryAt c2 frag a := by
  intro es
  induction es with
  | nil =>
    intro r _ _ _ _ _
    refine ⟨s, FixedTreeNode.mk [] [a], [], ?_, by simp, ?_⟩
    · rw [insertScan_nil]; simp
    · exact EntryAt.here (by simp)
  | cons e0 rest ih =>
    intro r h1 h2 h3 hsr hrec
    obtain ⟨L0, c0⟩ := e0
    by_cases hp : L0.isPrefixOf s
    · have hpre : L0 <+: s := isPrefixOf_iff.mp hp
      have hL0ne : L0 ≠ [] := h1 L0 c0 (by simp)
      have hL0pos : 0 < L0.length := List.length_pos.mpr hL0ne
      refine ⟨L0, recI c0 (s.drop L0.length), s.drop L0.length, ?_, ?_, ?_⟩
      · rw [insertScan_cons_pref recI s a L0 c0 rest hp]; simp
      · have htk : L0 = s.take L0.length := pref_iff_eq_take.mp hpre
        conv_lhs => rw [← List.take_append_drop L0.length s]
        rw [← htk]
      · refine hrec c0 (s.drop L0.length) (r - L0.length) (h3 L0 c0 (by simp)) ?_ ?_
        · rw [List.length_drop]
          exact Nat.sub_le_sub_right hsr _
        · rw [List.length_drop]
          have hls : L0.length ≤ s.length := hpre.length_le
          omega
    · have hpre : ¬ L0 <+: s := fun hh => hp (isPrefixOf_iff.mpr hh)
      by_cases hg : 0 < gcp L0 s
      · have hglt : gcp L0 s < L0.length := gcp_lt_length_of_not_prefix L0 s hpre
        have hgs : gcp L0 s ≤ s.length := by
          have := gcp_le_left s L0
          rw [gcp_comm] at this
          exact this
        have hL0r : L0.length ≤ r := h2 L0 c0 (by simp)
        refine ⟨L0.take (gcp L0 s),
          recI (FixedTreeNode.mk [(L0.drop (gcp L0 s), c0)] []) (s.drop (gcp L0 s)),
          s.drop (gcp L0 s), ?_, ?_, ?_⟩
        · rw [insertScan_cons_split recI s a L0 c0 rest hp hg]
          simp
        · rw [take_gcp_eq L0 s]
          exact (List.take_append_drop (gcp L0 s) s).symm
        · refine hrec _ (s.drop (gcp L0 s)) (r - gcp L0 s) ?_ ?_ ?_
          · refine HeightLE.mk ?_ ?_ ?_
            · intro La ca hm
              have hq := List.mem_singleton.mp hm
              injection hq with he1 he2
              rw [he1]
              intro hnil
              have := List.drop_eq_nil_iff.mp hnil
              omega
            · intro La ca hm
              have hq := List.mem_singleton.mp hm
              injection hq with he1 he2
              rw [he1, List.length_drop]
              omega
            · intro La ca hm
              have hq := List.mem_singleton.mp hm
              injection hq with he1 he2
              rw [he1, he2, List.length_drop]
              have hfix : r - gcp L0 s - (L0.length - gcp L0 s) = r - L0.length := by
                omega
              rw [hfix]
              exact h3 L0 c0 (by simp)
          · rw [List.length_drop]
            exact Nat.sub_le_sub_right hsr _
          · rw [List.length_drop]
            omega
      · rw [insertScan_cons_skip recI s a L0 c0 rest hp hg]
        obtain ⟨L2, c2, frag, hmem, heq, hent⟩ := ih r
          (fun La ca hm => h1 La ca (by simp [hm]))
          (fun La ca hm => h2 La ca (by simp [hm]))
          (fun La ca hm => h3 La ca (by simp [hm])) hsr hrec
        exact ⟨L2, c2, frag, by simp [hmem], heq, hent⟩

theorem entryAt_insertAux :
    ∀ (fuel : Nat) (node : FixedTreeNode) (s : List Char) (a : AlignRecord)
      (r : Nat), HeightLE node r → s.length ≤ r → s.length ≤ fuel →
      EntryAt (insertAux fuel node s a) s a := by
  intro fuel
  induction fuel with
  | zero =>
    intro node s a r h hsr hsf
    cases s with
    | nil =>
      cases node with
      | mk es as => exact EntryAt.here (by simp)
    | cons x xs => simp at hsf
  | succ f ih =>
    intro node s a r h hsr hsf
    cases s with
    | nil =>
      cases node with
      | mk es as => exact EntryAt.here (by simp)
    | cons x xs =>
      cases node with
      | mk es as =>
        cases h with
        | mk h1 h2 h3 =>
          obtain ⟨L2, c2, frag, hmem, heq, hent⟩ :=
            entryAt_insertScanMain (fun c2 s2 => insertAux f c2 s2 a)
              (x :: xs) a (by simp) es r h1 h2 h3 hsr
              (fun c s2 r2 hc hs2 hlen =>
                ih c s2 a r2 hc hs2
                  (by simp only [List.length_cons] at hsf hlen; omega))
          rw [show insertAux (f + 1) (FixedTreeNode.mk es as) (x :: xs) a =
            FixedTreeNode.mk (insertScan (fun c2 s2 => insertAux f c2 s2 a)
              (x :: xs) a es) as from rfl]
          have hstep : EntryAt (FixedTreeNode.mk (insertScan
              (fun c2 s2 => insertAux f c2 s2 a) (x :: xs) a es) as)
              (L2 ++ frag) a := EntryAt.step hmem hent
          rw [← heq] at hstep
          exact hstep

theorem entryAt_scan_preserved
    (recI : FixedTreeNode → List Char → FixedTreeNode) (s : List Char)
    (a : AlignRecord)
    (hrec : ∀ c s2 frag2 b2, EntryAt c frag2 b2 → EntryAt (recI c s2) frag2 b2) :
    ∀ (es : List (List Char × FixedTreeNode)) (L1 : List Char)
      (c1 : FixedTreeNode) (frag1 : List Char) (b : AlignRecord),
      (L1, c1) ∈ es → EntryAt c1 frag1 b →
      ∃ L2 c2 frag2, (L2, c2) ∈ insertScan recI s a es ∧
        L2 ++ frag2 = L1 ++ frag1 ∧ EntryAt c2 frag2 b := by
  intro es
  induction es with
  | nil =>
    intro L1 c1 frag1 b hmem _
    simp at hmem
  | cons e0 rest ih =>
    intro L1 c1 frag1 b hmem hent
    obtain ⟨L0, c0⟩ := e0
    by_cases hp : L0.isPrefixOf s
    · rw [insertScan_cons_pref recI s a L0 c0 rest hp]
      rcases List.mem_cons.mp hmem with heq | hmem2
      · injection heq with he1 he2
        subst he1
        refine ⟨L1, recI c0 (s.drop L1.length), frag1, by simp, rfl, ?_⟩
        rw [he2] at hent
        exact hrec c0 _ frag1 b hent
      · exact ⟨L1, c1, frag1, by simp [hmem2], rfl, hent⟩
    · by_cases hg : 0 < gcp L0 s
      · rw [insertScan_cons_split recI s a L0 c0 rest hp hg]
        rcases List.mem_cons.mp hmem with heq | hmem2
        · injection heq with he1 he2
          subst he1
          refine ⟨L1.take (gcp L1 s),
            recI (FixedTreeNode.mk [(L1.drop (gcp L1 s), c0)] []) (s.drop (gcp L1 s)),
            L1.drop (gcp L1 s) ++ frag1, ?_, ?_, ?_⟩
          · simp
          · rw [← List.append_assoc, List.take_append_drop]
          · rw [he2] at hent
            exact hrec _ _ _ b (EntryAt.step (List.mem_singleton.mpr rfl) hent)
        · exact ⟨L1, c1, frag1, by simp [hmem2], rfl, hent⟩
      · rw [insertScan_cons_skip recI s a L0 c0 rest hp hg]
        rcases List.mem_cons.mp hmem with heq | hmem2
        · injection heq with he1 he2
          subst he1
          refine ⟨L1, c0, frag1, by simp, rfl, ?_⟩
          rw [he2] at hent
          exact hent
        · obtain ⟨L2, c2, frag2, hm2, heq2, hent2⟩ :=
            ih L1 c1 frag1 b hmem2 hent
          exact ⟨L2, c2, frag2, by simp [hm2], heq2, hent2⟩

theorem entryAt_insert_preserved :
    ∀ (fuel : Nat) (node : FixedTreeNode) (s : List Char) (a : AlignRecord)
      (frag : List Char) (b : AlignRecord),
      EntryAt node frag b → EntryAt (insertAux fuel node s a) frag b := by
  intro fuel
  induction fuel with
  | zero =>
    intro node s a frag b h
    cases s with
    | nil =>
      cases h with
      | here hb => exact EntryAt.here (by simp [hb])
      | step hm he => exact EntryAt.step hm he
    | cons x xs => exact h
  | succ f ih =>
    intro node s a frag b h
    cases s with
    | nil =>
      cases h with
      | here hb => exact EntryAt.here (by simp [hb])
      | step hm he => exact EntryAt.step hm he
    | cons x xs =>
      cases h with
      | here hb => exact EntryAt.here hb
      | step hm he =>
        obtain ⟨L2, c2, frag2, hm2, heq2, hent2⟩ :=
          entryAt_scan_preserved (fun c2 s2 => insertAux f c2 s2 a)
            (x :: xs) a (fun c s2 frag2 b2 hent => ih c s2 a frag2 b2 hent)
            _ _ _ _ b hm he
        rw [show insertAux (f + 1) (FixedTreeNode.mk _ _) (x :: xs) a =
          FixedTreeNode.mk (insertScan (fun c2 s2 => insertAux f c2 s2 a)
            (x :: xs) a _) _ from rfl]
        rw [← heq2]
        exact EntryAt.step hm2 hent2

/- ### Branch shape lemmas for the search scan -/

theorem alignScan_nil
    (recA : FixedTreeNode → List Char → Nat → Option Nat →
      Except Err (List SearchResult))
    (s : List Char) (rem : Nat) (cap : Option Nat) (acc : List SearchResult) :
    alignScan recA s rem cap [] acc = Except.ok acc := rfl

theorem alignScan_cons_pref
    (recA : FixedTreeNode → List Char → Nat → Option Nat →
      Except Err (List SearchResult))
    (s : List Char) (rem : Nat) (cap : Option Nat) (L : List Char)
    (c : FixedTreeNode) (rest : List (List Char × FixedTreeNode))
    (acc : List SearchResult) (h : L.isPrefixOf s) :
    alignScan recA s rem cap ((L, c) :: rest) acc =
      match recA c (s.drop L.length) rem (childCap cap acc.length) with
      | Except.error e => Except.error e
      | Except.ok res =>
        if capTruthy cap ∧ cap.getD 0 < (acc ++ res).length then
          Except.ok (acc ++ res)
        else alignScan recA s rem cap rest (acc ++ res) := by
  simp [alignScan, h]

theorem alignScan_cons_ham
    (recA : FixedTreeNode → List Char → Nat → Option Nat →
      Except Err (List SearchResult))
    (s : List Char) (rem : Nat) (cap : Option Nat) (L : List Char)
    (c : FixedTreeNode) (rest : List (List Char × FixedTreeNode))
    (acc : List SearchResult) (h1 : ¬ L.isPrefixOf s) (h2 : 0 < rem) :
    alignScan recA s rem cap ((L, c) :: rest) acc =
      match hamming_distance L (s.take L.length) with
      | Except.error e => Except.error e
      | Except.ok hd =>
        if hd ≤ rem then
          if capTruthy cap then Except.error Err.nameError
          else
            match recA c (s.drop L.length) (rem - hd) none with
            | Except.error e => Except.error e
            | Except.ok res =>
              if capTruthy cap ∧ cap.getD 0 < (acc ++ res).length then
                Except.ok (acc ++ res)
              else alignScan recA s rem cap rest (acc ++ res)
        else alignScan recA s rem cap rest acc := by
  simp [alignScan, h1, h2]

theorem alignScan_cons_skip
    (recA : FixedTreeNode → List Char → Nat → Option Nat →
      Except Err (List SearchResult))
    (s : List Char) (rem : Nat) (cap : Option Nat) (L : List Char)
    (c : FixedTreeNode) (rest : List (List Char × FixedTreeNode))
    (acc : List SearchResult) (h1 : ¬ L.isPrefixOf s) (h2 : ¬ 0 < rem) :
    alignScan recA s rem cap ((L, c) :: rest) acc =
      alignScan recA s rem cap rest acc := by
  simp [alignScan, h1, h2]

theorem alignmentsAux_nilS (fuel : Nat) (node : FixedTreeNode)
    (orig rem : Nat) (cap : Option Nat) :
    alignmentsAux fuel node [] orig rem cap =
      Except.ok (node.alignRecords.map (fun v => (orig - rem, v.1, v.2.1, v.2.2))) := by
  cases fuel <;> rfl

theorem alignmentsAux_zeroF (node : FixedTreeNode) (x : Char) (xs : List Char)
    (orig rem : Nat) (cap : Option Nat) :
    alignmentsAux 0 node (x :: xs) orig rem cap = Except.ok [] := rfl

theorem alignmentsAux_succ (f : Nat) (node : FixedTreeNode) (x : Char)
    (xs : List Char) (orig rem : Nat) (cap : Option Nat) :
    alignmentsAux (f + 1) node (x :: xs) orig rem cap =
      alignScan (fun c s2 rem2 cap2 => alignmentsAux f c s2 orig rem2 cap2)
        (x :: xs) rem cap node.edges [] := rfl

/-- With no cap, the scan's accumulator factors out: the result is the
accumulator followed by what the scan over the same edges produces from an
empty accumulator. -/
theorem alignScan_none_factor
    (recA : FixedTreeNode → List Char → Nat → Option Nat →
      Except Err (List SearchResult))
    (s : List Char) (rem : Nat) :
    ∀ (edges : List (List Char × FixedTreeNode)) (acc : List SearchResult),
      alignScan recA s rem none edges acc =
        match alignScan recA s rem none edges [] with
        | Except.error e => Except.error e
        | Except.ok l => Except.ok (acc ++ l) := by
  intro edges
  induction edges with
  | nil => intro acc; simp [alignScan_nil]
  | cons e0 rest ih =>
    intro acc
    obtain ⟨L0, c0⟩ := e0
    by_cases hp : L0.isPrefixOf s
    · rw [alignScan_cons_pref recA s rem none L0 c0 rest acc hp,
        alignScan_cons_pref recA s rem none L0 c0 rest [] hp]
      have hcc : ∀ n : Nat, childCap none n = none := by intro n; rfl
      rw [hcc, hcc]
      cases recA c0 (s.drop L0.length) rem none with
      | error e => rfl
      | ok res =>
        simp only [capTruthy, false_and, if_false, List.nil_append]
        rw [ih (acc ++ res), ih res]
        cases alignScan recA s rem none rest [] with
        | error e => rfl
        | ok l2 => simp
    · by_cases hb : 0 < rem
      · rw [alignScan_cons_ham recA s rem none L0 c0 rest acc hp hb,
          alignScan_cons_ham recA s rem none L0 c0 rest [] hp hb]
        cases hamming_distance L0 (s.take L0.length) with
        | error e => rfl
        | ok hd =>
          by_cases hhd : hd ≤ rem
          · simp only [hhd, if_true, capTruthy, if_false]
            cases recA c0 (s.drop L0.length) (rem - hd) none with
            | error e => rfl
            | ok res =>
              simp only [capTruthy, false_and, if_false, List.nil_append]
              rw [ih (acc ++ res), ih res]
              cases alignScan recA s rem none rest [] with
              | error e => rfl
              | ok l2 => simp
          · simp only [hhd, if_false]
            exact ih acc
      · rw [alignScan_cons_skip recA s rem none L0 c0 rest acc hp hb,
          alignScan_cons_skip recA s rem none L0 c0 rest [] hp hb]
        exact ih acc

/- ### The search returns normally in the error-free regimes -/

theorem alignScan_zero_ok
    (recA : FixedTreeNode → List Char → Nat → Option Nat →
      Except Err (List SearchResult))
    (s : List Char)
    (hrec : ∀ c s2, ∃ l2, recA c s2 0 none = Except.ok l2) :
    ∀ (edges : List (List Char × FixedTreeNode)) (acc : List SearchResult),
      ∃ l, alignScan recA s 0 none edges acc = Except.ok l := by
  intro edges
  induction edges with
  | nil => intro acc; exact ⟨acc, rfl⟩
  | cons e0 rest ih =>
    intro acc
    obtain ⟨L0, c0⟩ := e0
    by_cases hp : L0.isPrefixOf s
    · rw [alignScan_cons_pref recA s 0 none L0 c0 rest acc hp]
      obtain ⟨l2, hl2⟩ := hrec c0 (s.drop L0.length)
      rw [show childCap none acc.length = none from rfl, hl2]
      simp only [capTruthy, false_and, if_false]
      exact ih (acc ++ l2)
    · rw [alignScan_cons_skip recA s 0 none L0 c0 rest acc hp (by simp)]
      exact ih acc

theorem searchZeroOk :
    ∀ (fuel : Nat) (node : FixedTreeNode) (s : List Char) (orig : Nat),
      ∃ l, alignmentsAux fuel node s orig 0 none = Except.ok l := by
  intro fuel
  induction fuel with
  | zero =>
    intro node s orig
    cases s with
    | nil => exact ⟨_, alignmentsAux_nilS 0 node orig 0 none⟩
    | cons x xs => exact ⟨[], rfl⟩
  | succ f ih =>
    intro node s orig
    cases s with
    | nil => exact ⟨_, alignmentsAux_nilS (f + 1) node orig 0 none⟩
    | cons x xs =>
      rw [alignmentsAux_succ f node x xs orig 0 none]
      exact alignScan_zero_ok _ (x :: xs) (fun c s2 => ih c s2 orig)
        node.edges []

theorem alignScan_none_ok
    (recA : FixedTreeNode → List Char → Nat → Option Nat →
      Except Err (List SearchResult))
    (s : List Char) (rem : Nat)
    (hrec : ∀ c s2 rem2, HeightLE c s2.length →
      ∃ l2, recA c s2 rem2 none = Except.ok l2) :
    ∀ (edges : List (List Char × FixedTreeNode)) (acc : List SearchResult),
      (∀ L c, (L, c) ∈ edges →
        L.length ≤ s.length ∧ HeightLE c (s.length - L.length)) →
      ∃ l, alignScan recA s rem none edges acc = Except.ok l := by
  intro edges
  induction edges with
  | nil => intro acc _; exact ⟨acc, rfl⟩
  | cons e0 rest ih =>
    intro acc hed
    obtain ⟨L0, c0⟩ := e0
    have h0 := hed L0 c0 (by simp)
    have hdroplen : (s.drop L0.length).length = s.length - L0.length := by
      rw [List.length_drop]
    by_cases hp : L0.isPrefixOf s
    · rw [alignScan_cons_pref recA s rem none L0 c0 rest acc hp]
      obtain ⟨l2, hl2⟩ := hrec c0 (s.drop L0.length) rem (by rw [hdroplen]; exact h0.2)
      rw [show childCap none acc.length = none from rfl, hl2]
      simp only [capTruthy, false_and, if_false]
      exact ih (acc ++ l2) (fun La ca hm => hed La ca (by simp [hm]))
    · by_cases hb : 0 < rem
      · rw [alignScan_cons_ham recA s rem none L0 c0 rest acc hp hb]
        have hlen : (s.take L0.length).length = L0.length := by
          rw [List.length_take]
          exact Nat.min_eq_left h0.1
        rw [show hamming_distance L0 (s.take L0.length) =
          Except.ok (hammingCount L0 (s.take L0.length)) from by
            simp [hamming_distance, hlen]]
        by_cases hhd : hammingCount L0 (s.take L0.length) ≤ rem
        · simp only [hhd, if_true, capTruthy, if_false]
          obtain ⟨l2, hl2⟩ := hrec c0 (s.drop L0.length)
            (rem - hammingCount L0 (s.take L0.length))
            (by rw [hdroplen]; exact h0.2)
          rw [hl2]
          simp only [capTruthy, false_and, if_false]
          exact ih (acc ++ l2) (fun La ca hm => hed La ca (by simp [hm]))
        · simp only [hhd, if_false]
          exact ih acc (fun La ca hm => hed La ca (by simp [hm]))
      · rw [alignScan_cons_skip recA s rem none L0 c0 rest acc hp hb]
        exact ih acc (fun La ca hm => hed La ca (by simp [hm]))

theorem searchNoneOk :
    ∀ (fuel : Nat) (node : FixedTreeNode) (s : List Char) (orig rem : Nat),
      HeightLE node s.length →
      ∃ l, alignmentsAux fuel node s orig rem none = Except.ok l := by
  intro fuel
  induction fuel with
  | zero =>
    intro node s orig rem _
    cases s with
    | nil => exact ⟨_, alignmentsAux_nilS 0 node orig rem none⟩
    | cons x xs => exact ⟨[], rfl⟩
  | succ f ih =>
    intro node s orig rem h
    cases s with
    | nil => exact ⟨_, alignmentsAux_nilS (f + 1) node orig rem none⟩
    | cons x xs =>
      rw [alignmentsAux_succ f node x xs orig rem none]
      cases node with
      | mk es as =>
        cases h with
        | mk h1 h2 h3 =>
          exact alignScan_none_ok _ (x :: xs) rem
            (fun c s2 rem2 hc => ih c s2 orig rem2 hc) es []
            (fun La ca hm => ⟨h2 La ca hm, h3 La ca hm⟩)

/- ### The unequal-length Hamming error is unreachable on disciplined trees -/

theorem alignScan_no_hamErr
    (recA : FixedTreeNode → List Char → Nat → Option Nat →
      Except Err (List SearchResult))
    (s : List Char) (rem : Nat) (cap : Option Nat)
    (hrec : ∀ c s2 rem2 cap2, HeightLE c s2.length →
      recA c s2 rem2 cap2 ≠ Except.error Err.hammingLength) :
    ∀ (edges : List (List Char × FixedTreeNode)) (acc : List SearchResult),
      (∀ L c, (L, c) ∈ edges →
        L.length ≤ s.length ∧ HeightLE c (s.length - L.length)) →
      alignScan recA s rem cap edges acc ≠ Except.error Err.hammingLength := by
  intro edges
  induction edges with
  | nil => intro acc _; rw [alignScan_nil]; simp
  | cons e0 rest ih =>
    intro acc hed
    obtain ⟨L0, c0⟩ := e0
    have h0 := hed L0 c0 (by simp)
    have hdroplen : (s.drop L0.length).length = s.length - L0.length := by
      rw [List.length_drop]
    by_cases hp : L0.isPrefixOf s
    · rw [alignScan_cons_pref recA s rem cap L0 c0 rest acc hp]
      cases hrecres : recA c0 (s.drop L0.length) rem (childCap cap acc.length) with
      | error e =>
        have := hrec c0 (s.drop L0.length) rem (childCap cap acc.length)
          (by rw [hdroplen]; exact h0.2)
        rw [hrecres] at this
        simpa using fun hcontra => this (by rw [hcontra])
      | ok res =>
        dsimp only
        by_cases hsh : capTruthy cap ∧ cap.getD 0 < (acc ++ res).length
        · rw [if_pos hsh]; simp
        · rw [if_neg hsh]
          exact ih (acc ++ res) (fun La ca hm => hed La ca (by simp [hm]))
    · by_cases hb : 0 < rem
      · rw [alignScan_cons_ham recA s rem cap L0 c0 rest acc hp hb]
        have hlen : (s.take L0.length).length = L0.length := by
          rw [List.length_take]
          exact Nat.min_eq_left h0.1
        rw [show hamming_distance L0 (s.take L0.length) =
          Except.ok (hammingCount L0 (s.take L0.length)) from by
            simp [hamming_distance, hlen]]
        by_cases hhd : hammingCount L0 (s.take L0.length) ≤ rem
        · simp only [hhd, if_true]
          by_cases hct : capTruthy cap
          · simp [hct]
          · simp only [hct, if_false, Bool.false_eq_true]
            cases hrecres : recA c0 (s.drop L0.length)
                (rem - hammingCount L0 (s.take L0.length)) none with
            | error e =>
              have := hrec c0 (s.drop L0.length)
                (rem - hammingCount L0 (s.take L0.length)) none
                (by rw [hdroplen]; exact h0.2)
              rw [hrecres] at this
              simpa using fun hcontra => this (by rw [hcontra])
            | ok res =>
              dsimp only
              simp only [false_and, if_false]
              exact ih (acc ++ res) (fun La ca hm => hed La ca (by simp [hm]))
        · simp only [hhd, if_false]
          exact ih acc (fun La ca hm => hed La ca (by simp [hm]))
      · rw [alignScan_cons_skip recA s rem cap L0 c0 rest acc hp hb]
        exact ih acc (fun La ca hm => hed La ca (by simp [hm]))

theorem search_no_hamErr :
    ∀ (fuel : Nat) (node : FixedTreeNode) (s : List Char) (orig rem : Nat)
      (cap : Option Nat), HeightLE node s.length →
      alignmentsAux fuel node s orig rem cap ≠ Except.error Err.hammingLength := by
  intro fuel
  induction fuel with
  | zero =>
    intro node s orig rem cap _
    cases s with
    | nil => rw [alignmentsAux_nilS]; simp
    | cons x xs => rw [alignmentsAux_zeroF]; simp
  | succ f ih =>
    intro node s orig rem cap h
    cases s with
    | nil => rw [alignmentsAux_nilS]; simp
    | cons x xs =>
      rw [alignmentsAux_succ f node x xs orig rem cap]
      cases node with
      | mk es as =>
        cases h with
        | mk h1 h2 h3 =>
          exact alignScan_no_hamErr _ (x :: xs) rem cap
            (fun c s2 rem2 cap2 hc => ih c s2 orig rem2 cap2 hc) es []
            (fun La ca hm => ⟨h2 La ca hm, h3 La ca hm⟩)

/- ### A zero cap behaves exactly like no cap -/

theorem alignScan_capZero
    (recA : FixedTreeNode → List Char → Nat → Option Nat →
      Except Err (List SearchResult))
    (s : List Char) (rem : Nat) :
    ∀ (edges : List (List Char × FixedTreeNode)) (acc : List SearchResult),
      alignScan recA s rem (some 0) edges acc =
        alignScan recA s rem none edges acc := by
  intro edges
  induction edges with
  | nil => intro acc; rfl
  | cons e0 rest ih =>
    intro acc
    obtain ⟨L0, c0⟩ := e0
    by_cases hp : L0.isPrefixOf s
    · rw [alignScan_cons_pref recA s rem (some 0) L0 c0 rest acc hp,
        alignScan_cons_pref recA s rem none L0 c0 rest acc hp]
      rw [show childCap (some 0) acc.length = none from rfl,
        show childCap none acc.length = none from rfl]
      cases recA c0 (s.drop L0.length) rem none with
      | error e => rfl
      | ok res =>
        simp only [capTruthy, bne_self_eq_false, false_and, if_false,
          Bool.false_eq_true]
        exact ih (acc ++ res)
    · by_cases hb : 0 < rem
      · rw [alignScan_cons_ham recA s rem (some 0) L0 c0 rest acc hp hb,
          alignScan_cons_ham recA s rem none L0 c0 rest acc hp hb]
        cases hamming_distance L0 (s.take L0.length) with
        | error e => rfl
        | ok hd =>
          by_cases hhd : hd ≤ rem
          · simp only [hhd, if_true]
            rw [show (capTruthy (some 0)) = false from rfl,
              show (capTruthy none) = false from rfl]
            simp only [Bool.false_eq_true, if_false]
            cases recA c0 (s.drop L0.length) (rem - hd) none with
            | error e => rfl
            | ok res =>
              simp only [capTruthy, bne_self_eq_false, false_and, if_false,
                Bool.false_eq_true]
              exact ih (acc ++ res)
          · simp only [hhd, if_false]
            exact ih acc
      · rw [alignScan_cons_skip recA s rem (some 0) L0 c0 rest acc hp hb,
          alignScan_cons_skip recA s rem none L0 c0 rest acc hp hb]
        exact ih acc

theorem search_capZero (fuel : Nat) (node : FixedTreeNode) (s : List Char)
    (orig rem : Nat) :
    alignmentsAux fuel node s orig rem (some 0) =
      alignmentsAux fuel node s orig rem none := by
  cases s with
  | nil => rw [alignmentsAux_nilS, alignmentsAux_nilS]
  | cons x xs =>
    cases fuel with
    | zero => rfl
    | succ f =>
      rw [alignmentsAux_succ, alignmentsAux_succ]
      exact alignScan_capZero _ (x :: xs) rem node.edges []

/- ### Search results draw their ids from records stored in the tree -/

theorem alignScan_ids (P : Nat → Prop)
    (recA : FixedTreeNode → List Char → Nat → Option Nat →
      Except Err (List SearchResult))
    (s : List Char) (rem : Nat) (cap : Option Nat)
    (hrec : ∀ c s2 rem2 cap2 l2 x2, NodeIds P c →
      recA c s2 rem2 cap2 = Except.ok l2 → x2 ∈ l2 → P x2.2.1) :
    ∀ (edges : List (List Char × FixedTreeNode)) (acc : List SearchResult)
      (l : List SearchResult) (x : SearchResult),
      (∀ L c, (L, c) ∈ edges → NodeIds P c) →
      (∀ y ∈ acc, P y.2.1) →
      alignScan recA s rem cap edges acc = Except.ok l → x ∈ l → P x.2.1 := by
  intro edges
  induction edges with
  | nil =>
    intro acc l x _ hacc hscan hx
    rw [alignScan_nil] at hscan
    injection hscan with hscan
    subst hscan
    exact hacc x hx
  | cons e0 rest ih =>
    intro acc l x hed hacc hscan hx
    obtain ⟨L0, c0⟩ := e0
    by_cases hp : L0.isPrefixOf s
    · rw [alignScan_cons_pref recA s rem cap L0 c0 rest acc hp] at hscan
      cases hrecres : recA c0 (s.drop L0.length) rem (childCap cap acc.length) with
      | error e => rw [hrecres] at hscan; cases hscan
      | ok res =>
        rw [hrecres] at hscan
        dsimp only at hscan
        have haccres : ∀ y ∈ acc ++ res, P y.2.1 := by
          intro y hy
          rcases List.mem_append.mp hy with hy2 | hy2
          · exact hacc y hy2
          · exact hrec c0 _ rem _ res y (hed L0 c0 (by simp)) hrecres hy2
        by_cases hsh : capTruthy cap ∧ cap.getD 0 < (acc ++ res).length
        · rw [if_pos hsh] at hscan
          injection hscan with hscan
          subst hscan
          exact haccres x hx
        · rw [if_neg hsh] at hscan
          exact ih (acc ++ res) l x (fun La ca hm => hed La ca (by simp [hm]))
            haccres hscan hx
    · by_cases hb : 0 < rem
      · rw [alignScan_cons_ham recA s rem cap L0 c0 rest acc hp hb] at hscan
        cases hdres : hamming_distance L0 (s.take L0.length) with
        | error e => rw [hdres] at hscan; cases hscan
        | ok hd =>
          rw [hdres] at hscan
          dsimp only at hscan
          by_cases hhd : hd ≤ rem
          · rw [if_pos hhd] at hscan
            by_cases hct : capTruthy cap
            · rw [if_pos hct] at hscan; cases hscan
            · rw [if_neg hct] at hscan
              cases hrecres : recA c0 (s.drop L0.length) (rem - hd) none with
              | error e => rw [hrecres] at hscan; cases hscan
              | ok res =>
                rw [hrecres] at hscan
                dsimp only at hscan
                have haccres : ∀ y ∈ acc ++ res, P y.2.1 := by
                  intro y hy
                  rcases List.mem_append.mp hy with hy2 | hy2
                  · exact hacc y hy2
                  · exact hrec c0 _ (rem - hd) none res y (hed L0 c0 (by simp))
                      hrecres hy2
                by_cases hsh : capTruthy cap ∧ cap.getD 0 < (acc ++ res).length
                · rw [if_pos hsh] at hscan
                  injection hscan with hscan
                  subst hscan
                  exact haccres x hx
                · rw [if_neg hsh] at hscan
                  exact ih (acc ++ res) l x
                    (fun La ca hm => hed La ca (by simp [hm])) haccres hscan hx
          · rw [if_neg hhd] at hscan
            exact ih acc l x (fun La ca hm => hed La ca (by simp [hm])) hacc
              hscan hx
      · rw [alignScan_cons_skip recA s rem cap L0 c0 rest acc hp hb] at hscan
        exact ih acc l x (fun La ca hm => hed La ca (by simp [hm])) hacc hscan hx

theorem search_ids (P : Nat → Prop) :
    ∀ (fuel : Nat) (node : FixedTreeNode) (s : List Char) (orig rem : Nat)
      (cap : Option Nat) (l : List SearchResult) (x : SearchResult),
      NodeIds P node → alignmentsAux fuel node s orig rem cap = Except.ok l →
      x ∈ l → P x.2.1 := by
  intro fuel
  induction fuel with
  | zero =>
    intro node s orig rem cap l x hn hok hx
    cases s with
    | nil =>
      rw [alignmentsAux_nilS] at hok
      injection hok with hok
      subst hok
      obtain ⟨a, ha, rfl⟩ := List.mem_map.mp hx
      cases node with
      | mk es as =>
        cases hn with
        | mk h1 h2 => exact h1 a (by simpa [FixedTreeNode.alignRecords] using ha)
    | cons xx xs =>
      rw [alignmentsAux_zeroF] at hok
      injection hok with hok
      subst hok
      simp at hx
  | succ f ih =>
    intro node s orig rem cap l x hn hok hx
    cases s with
    | nil =>
      rw [alignmentsAux_nilS] at hok
      injection hok with hok
      subst hok
      obtain ⟨a, ha, rfl⟩ := List.mem_map.mp hx
      cases node with
      | mk es as =>
        cases hn with
        | mk h1 h2 => exact h1 a (by simpa [FixedTreeNode.alignRecords] using ha)
    | cons xx xs =>
      rw [alignmentsAux_succ] at hok
      cases node with
      | mk es as =>
        cases hn with
        | mk h1 h2 =>
          exact alignScan_ids P _ (xx :: xs) rem cap
            (fun c s2 rem2 cap2 l2 x2 hc hok2 hx2 =>
              ih c s2 orig rem2 cap2 l2 x2 hc hok2 hx2) es [] l x
            (fun La ca hm => h2 La ca (by simpa [FixedTreeNode.edges] using hm))
            (by simp) hok hx

/- ### Result count is monotone in the mismatch budget (no cap) -/

theorem alignScan_mono
    (rec1 rec2 : FixedTreeNode → List Char → Nat → Option Nat →
      Except Err (List SearchResult))
    (s : List Char) (rem1 rem2 : Nat) (hrem : rem1 ≤ rem2)
    (hrec : ∀ c s2 r1 r2 l1 l2, r1 ≤ r2 →
      rec1 c s2 r1 none = Except.ok l1 → rec2 c s2 r2 none = Except.ok l2 →
      l1.length ≤ l2.length) :
    ∀ (edges : List (List Char × FixedTreeNode))
      (acc1 acc2 : List SearchResult) (l1 l2 : List SearchResult),
      acc1.length ≤ acc2.length →
      alignScan rec1 s rem1 none edges acc1 = Except.ok l1 →
      alignScan rec2 s rem2 none edges acc2 = Except.ok l2 →
      l1.length ≤ l2.length := by
  intro edges
  induction edges with
  | nil =>
    intro acc1 acc2 l1 l2 hacc h1 h2
    rw [alignScan_nil] at h1 h2
    injection h1 with h1
    injection h2 with h2
    subst h1; subst h2
    exact hacc
  | cons e0 rest ih =>
    intro acc1 acc2 l1 l2 hacc h1 h2
    obtain ⟨L0, c0⟩ := e0
    by_cases hp : L0.isPrefixOf s
    · rw [alignScan_cons_pref rec1 s rem1 none L0 c0 rest acc1 hp] at h1
      rw [alignScan_cons_pref rec2 s rem2 none L0 c0 rest acc2 hp] at h2
      rw [show childCap none acc1.length = none from rfl] at h1
      rw [show childCap none acc2.length = none from rfl] at h2
      cases hr1 : rec1 c0 (s.drop L0.length) rem1 none with
      | error e => rw [hr1] at h1; cases h1
      | ok res1 =>
        cases hr2 : rec2 c0 (s.drop L0.length) rem2 none with
        | error e => rw [hr2] at h2; cases h2
        | ok res2 =>
          rw [hr1] at h1; rw [hr2] at h2
          dsimp only at h1 h2
          rw [if_neg (by simp [capTruthy])] at h1
          rw [if_neg (by simp [capTruthy])] at h2
          refine ih (acc1 ++ res1) (acc2 ++ res2) l1 l2 ?_ h1 h2
          simp only [List.length_append]
          exact Nat.add_le_add hacc (hrec c0 _ rem1 rem2 res1 res2 hrem hr1 hr2)
    · cases hdres : hamming_distance L0 (s.take L0.length) with
      | error e =>
        by_cases hb2 : 0 < rem2
        · rw [alignScan_cons_ham rec2 s rem2 none L0 c0 rest acc2 hp hb2,
            hdres] at h2
          cases h2
        · have hb1 : ¬ 0 < rem1 := by omega
          rw [alignScan_cons_skip rec1 s rem1 none L0 c0 rest acc1 hp hb1] at h1
          rw [alignScan_cons_skip rec2 s rem2 none L0 c0 rest acc2 hp hb2] at h2
          exact ih acc1 acc2 l1 l2 hacc h1 h2
      | ok hd =>
        by_cases hb1 : 0 < rem1
        · have hb2 : 0 < rem2 := by omega
          rw [alignScan_cons_ham rec1 s rem1 none L0 c0 rest acc1 hp hb1,
            hdres] at h1
          rw [alignScan_cons_ham rec2 s rem2 none L0 c0 rest acc2 hp hb2,
            hdres] at h2
          dsimp only at h1 h2
          by_cases hhd1 : hd ≤ rem1
          · have hhd2 : hd ≤ rem2 := by omega
            rw [if_pos hhd1] at h1
            rw [if_pos hhd2] at h2
            rw [if_neg (by simp [capTruthy])] at h1
            rw [if_neg (by simp [capTruthy])] at h2
            cases hr1 : rec1 c0 (s.drop L0.length) (rem1 - hd) none with
            | error e => rw [hr1] at h1; cases h1
            | ok res1 =>
              cases hr2 : rec2 c0 (s.drop L0.length) (rem2 - hd) none with
              | error e => rw [hr2] at h2; cases h2
              | ok res2 =>
                rw [hr1] at h1; rw [hr2] at h2
                dsimp only at h1 h2
                rw [if_neg (by simp [capTruthy])] at h1
                rw [if_neg (by simp [capTruthy])] at h2
                refine ih (acc1 ++ res1) (acc2 ++ res2) l1 l2 ?_ h1 h2
                simp only [List.length_append]
                refine Nat.add_le_add hacc
                  (hrec c0 _ (rem1 - hd) (rem2 - hd) res1 res2 (by omega) hr1 hr2)
          · rw [if_neg hhd1] at h1
            by_cases hhd2 : hd ≤ rem2
            · rw [if_pos hhd2] at h2
              rw [if_neg (by simp [capTruthy])] at h2
              cases hr2 : rec2 c0 (s.drop L0.length) (rem2 - hd) none with
              | error e => rw [hr2] at h2; cases h2
              | ok res2 =>
                rw [hr2] at h2
                dsimp only at h2
                rw [if_neg (by simp [capTruthy])] at h2
                refine ih acc1 (acc2 ++ res2) l1 l2 ?_ h1 h2
                simp only [List.length_append]
                omega
            · rw [if_neg hhd2] at h2
              exact ih acc1 acc2 l1 l2 hacc h1 h2
        · rw [alignScan_cons_skip rec1 s rem1 none L0 c0 rest acc1 hp hb1] at h1
          by_cases hb2 : 0 < rem2
          · rw [alignScan_cons_ham rec2 s rem2 none L0 c0 rest acc2 hp hb2,
              hdres] at h2
            dsimp only at h2
            by_cases hhd2 : hd ≤ rem2
            · rw [if_pos hhd2] at h2
              rw [if_neg (by simp [capTruthy])] at h2
              cases hr2 : rec2 c0 (s.drop L0.length) (rem2 - hd) none with
              | error e => rw [hr2] at h2; cases h2
              | ok res2 =>
                rw [hr2] at h2
                dsimp only at h2
                rw [if_neg (by simp [capTruthy])] at h2
                refine ih acc1 (acc2 ++ res2) l1 l2 ?_ h1 h2
                simp only [List.length_append]
                omega
            · rw [if_neg hhd2] at h2
              exact ih acc1 acc2 l1 l2 hacc h1 h2
          · rw [alignScan_cons_skip rec2 s rem2 none L0 c0 rest acc2 hp hb2] at h2
            exact ih acc1 acc2 l1 l2 hacc h1 h2

theorem search_mono :
    ∀ (fuel : Nat) (node : FixedTreeNode) (s : List Char)
      (orig1 orig2 rem1 rem2 : Nat) (l1 l2 : List SearchResult),
      rem1 ≤ rem2 →
      alignmentsAux fuel node s orig1 rem1 none = Except.ok l1 →
      alignmentsAux fuel node s orig2 rem2 none = Except.ok l2 →
      l1.length ≤ l2.length := by
  intro fuel
  induction fuel with
  | zero =>
    intro node s orig1 orig2 rem1 rem2 l1 l2 hrem h1 h2
    cases s with
    | nil =>
      rw [alignmentsAux_nilS] at h1 h2
      injection h1 with h1
      injection h2 with h2
      subst h1; subst h2
      simp
    | cons x xs =>
      rw [alignmentsAux_zeroF] at h1 h2
      injection h1 with h1
      injection h2 with h2
      subst h1; subst h2
      simp
  | succ f ih =>
    intro node s orig1 orig2 rem1 rem2 l1 l2 hrem h1 h2
    cases s with
    | nil =>
      rw [alignmentsAux_nilS] at h1 h2
      injection h1 with h1
      injection h2 with h2
      subst h1; subst h2
      simp
    | cons x xs =>
      rw [alignmentsAux_succ] at h1 h2
      exact alignScan_mono _ _ (x :: xs) rem1 rem2 hrem
        (fun c s2 r1 r2 la lb hr ha hb => ih c s2 orig1 orig2 r1 r2 la lb hr ha hb)
        node.edges [] [] l1 l2 (by simp) h1 h2

/- ### Soundness: every result's mismatch tag is the Hamming distance to a
stored fragment -/

theorem hamming_distance_ok (a b : List Char) (hd : Nat)
    (h : hamming_distance a b = Except.ok hd) :
    a.length = b.length ∧ hd = hammingCount a b := by
  unfold hamming_distance at h
  by_cases hl : a.length ≠ b.length
  · rw [if_pos hl] at h; cases h
  · rw [if_neg hl] at h
    injection h with h
    exact ⟨by omega, h.symm⟩

theorem alignScan_sound
    (recA : FixedTreeNode → List Char → Nat → Option Nat →
      Except Err (List SearchResult))
    (s : List Char) (rem orig : Nat) (hro : rem ≤ orig)
    (hrec : ∀ c s2 rem2 l2 x2, rem2 ≤ orig →
      recA c s2 rem2 none = Except.ok l2 → x2 ∈ l2 →
      ∃ frag, EntryAt c frag x2.2 ∧ frag.length = s2.length ∧
        x2.1 = (orig - rem2) + hammingCount frag s2 ∧
        hammingCount frag s2 ≤ rem2) :
    ∀ (edges : List (List Char × FixedTreeNode)) (acc l : List SearchResult)
      (x : SearchResult),
      alignScan recA s rem none edges acc = Except.ok l → x ∈ l →
      x ∈ acc ∨ ∃ L c frag, (L, c) ∈ edges ∧ EntryAt c frag x.2 ∧
        (L ++ frag).length = s.length ∧
        x.1 = (orig - rem) + hammingCount (L ++ frag) s ∧
        hammingCount (L ++ frag) s ≤ rem := by
  intro edges
  induction edges with
  | nil =>
    intro acc l x hscan hx
    rw [alignScan_nil] at hscan
    injection hscan with hscan
    subst hscan
    exact Or.inl hx
  | cons e0 rest ih =>
    intro acc l x hscan hx
    obtain ⟨L0, c0⟩ := e0
    by_cases hp : L0.isPrefixOf s
    · have hpre : L0 <+: s := isPrefixOf_iff.mp hp
      have hlen : L0.length ≤ s.length := hpre.length_le
      rw [alignScan_cons_pref recA s rem none L0 c0 rest acc hp] at hscan
      rw [show childCap none acc.length = none from rfl] at hscan
      cases hr : recA c0 (s.drop L0.length) rem none with
      | error e => rw [hr] at hscan; cases hscan
      | ok res =>
        rw [hr] at hscan
        dsimp only at hscan
        rw [if_neg (by simp [capTruthy])] at hscan
        rcases ih (acc ++ res) l x hscan hx with hin | ⟨L2, c2, frag2, hm, he, hl2, hx1, hham⟩
        · rcases List.mem_append.mp hin with hin2 | hin2
          · exact Or.inl hin2
          · obtain ⟨frag, hent, hfl, hx1, hham⟩ :=
              hrec c0 (s.drop L0.length) rem res x hro hr hin2
            refine Or.inr ⟨L0, c0, frag, by simp, hent, ?_, ?_, ?_⟩
            · rw [List.length_append, hfl, List.length_drop]
              omega
            · rw [hammingCount_append L0 frag s hlen]
              have htake : s.take L0.length = L0 :=
                (pref_iff_eq_take.mp hpre).symm
              rw [htake, hammingCount_self]
              simpa using hx1
            · rw [hammingCount_append L0 frag s hlen]
              have htake : s.take L0.length = L0 :=
                (pref_iff_eq_take.mp hpre).symm
              rw [htake, hammingCount_self]
              simpa using hham
        · exact Or.inr ⟨L2, c2, frag2, by simp [hm], he, hl2, hx1, hham⟩
    · by_cases hb : 0 < rem
      · rw [alignScan_cons_ham recA s rem none L0 c0 rest acc hp hb] at hscan
        cases hdres : hamming_distance L0 (s.take L0.length) with
        | error e => rw [hdres] at hscan; cases hscan
        | ok hd =>
          rw [hdres] at hscan
          dsimp only at hscan
          obtain ⟨hlen0, hdval⟩ := hamming_distance_ok _ _ hd hdres
          have hlen : L0.length ≤ s.length := by
            rw [List.length_take] at hlen0
            omega
          by_cases hhd : hd ≤ rem
          · rw [if_pos hhd] at hscan
            rw [if_neg (by simp [capTruthy])] at hscan
            cases hr : recA c0 (s.drop L0.length) (rem - hd) none with
            | error e => rw [hr] at hscan; cases hscan
            | ok res =>
              rw [hr] at hscan
              dsimp only at hscan
              rw [if_neg (by simp [capTruthy])] at hscan
              rcases ih (acc ++ res) l x hscan hx with hin | ⟨L2, c2, frag2, hm, he, hl2, hx1, hham⟩
              · rcases List.mem_append.mp hin with hin2 | hin2
                · exact Or.inl hin2
                · obtain ⟨frag, hent, hfl, hx1, hham⟩ :=
                    hrec c0 (s.drop L0.length) (rem - hd) res x (by omega) hr hin2
                  refine Or.inr ⟨L0, c0, frag, by simp, hent, ?_, ?_, ?_⟩
                  · rw [List.length_append, hfl, List.length_drop]
                    omega
                  · rw [hammingCount_append L0 frag s hlen, ← hdval]
                    omega
                  · rw [hammingCount_append L0 frag s hlen, ← hdval]
                    omega
              · exact Or.inr ⟨L2, c2, frag2, by simp [hm], he, hl2, hx1, hham⟩
          · rw [if_neg hhd] at hscan
            rcases ih acc l x hscan hx with hin | ⟨L2, c2, frag2, hm, he, hl2, hx1, hham⟩
            · exact Or.inl hin
            · exact Or.inr ⟨L2, c2, frag2, by simp [hm], he, hl2, hx1, hham⟩
      · rw [alignScan_cons_skip recA s rem none L0 c0 rest acc hp hb] at hscan
        rcases ih acc l x hscan hx with hin | ⟨L2, c2, frag2, hm, he, hl2, hx1, hham⟩
        · exact Or.inl hin
        · exact Or.inr ⟨L2, c2, frag2, by simp [hm], he, hl2, hx1, hham⟩

theorem search_sound :
    ∀ (fuel : Nat) (node : FixedTreeNode) (s : List Char) (orig rem : Nat)
      (l : List SearchResult) (x : SearchResult), rem ≤ orig →
      alignmentsAux fuel node s orig rem none = Except.ok l → x ∈ l →
      ∃ frag, EntryAt node frag x.2 ∧ frag.length = s.length ∧
        x.1 = (orig - rem) + hammingCount frag s ∧
        hammingCount frag s ≤ rem := by
  intro fuel
  induction fuel with
  | zero =>
    intro node s orig rem l x hro hok hx
    cases s with
    | nil =>
      rw [alignmentsAux_nilS] at hok
      injection hok with hok
      subst hok
      obtain ⟨a, ha, rfl⟩ := List.mem_map.mp hx
      cases node with
      | mk es as =>
        refine ⟨[], EntryAt.here (by simpa [FixedTreeNode.alignRecords] using ha),
          by simp, ?_, by simp [hammingCount]⟩
        simp [hammingCount]
    | cons xx xs =>
      rw [alignmentsAux_zeroF] at hok
      injection hok with hok
      subst hok
      simp at hx
  | succ f ih =>
    intro node s orig rem l x hro hok hx
    cases s with
    | nil =>
      rw [alignmentsAux_nilS] at hok
      injection hok with hok
      subst hok
      obtain ⟨a, ha, rfl⟩ := List.mem_map.mp hx
      cases node with
      | mk es as =>
        refine ⟨[], EntryAt.here (by simpa [FixedTreeNode.alignRecords] using ha),
          by simp, ?_, by simp [hammingCount]⟩
        simp [hammingCount]
    | cons xx xs =>
      rw [alignmentsAux_succ] at hok
      rcases alignScan_sound _ (xx :: xs) rem orig hro
        (fun c s2 rem2 l2 x2 hro2 hok2 hx2 => ih c s2 orig rem2 l2 x2 hro2 hok2 hx2)
        node.edges [] l x hok hx with hin | ⟨L2, c2, frag2, hm, he, hl2, hx1, hham⟩
      · simp at hin
      · cases node with
        | mk es as =>
          exact ⟨L2 ++ frag2, EntryAt.step (by simpa [FixedTreeNode.edges] using hm) he,
            hl2, hx1, hham⟩

/- ### Completeness at mismatch budget 0: stored records are found -/

theorem alignScan_complete0
    (recA : FixedTreeNode → List Char → Nat → Option Nat →
      Except Err (List SearchResult))
    (s : List Char) (y : SearchResult)
    (hok : ∀ c s2, ∃ l2, recA c s2 0 none = Except.ok l2) :
    ∀ (edges : List (List Char × FixedTreeNode)) (acc : List SearchResult)
      (L : List Char) (c : FixedTreeNode),
      (L, c) ∈ edges → L.isPrefixOf s →
      (∀ l2, recA c (s.drop L.length) 0 none = Except.ok l2 → y ∈ l2) →
      ∃ l, alignScan recA s 0 none edges acc = Except.ok l ∧ y ∈ l := by
  intro edges
  induction edges with
  | nil =>
    intro acc L c hmem _ _
    simp at hmem
  | cons e0 rest ih =>
    intro acc L c hmem hpref htarget
    obtain ⟨L0, c0⟩ := e0
    rcases List.mem_cons.mp hmem with heq | hmem2
    · injection heq with he1 he2
      subst he1; subst he2
      rw [alignScan_cons_pref recA s 0 none L c rest acc hpref]
      obtain ⟨l2, hl2⟩ := hok c (s.drop L.length)
      rw [show childCap none acc.length = none from rfl, hl2]
      dsimp only
      rw [if_neg (by simp [capTruthy])]
      obtain ⟨l3, hl3⟩ := alignScan_zero_ok recA s hok rest []
      rw [alignScan_none_factor recA s 0 rest (acc ++ l2), hl3]
      refine ⟨acc ++ l2 ++ l3, by simp, ?_⟩
      have hy : y ∈ l2 := htarget l2 hl2
      simp [hy]
    · by_cases hp0 : L0.isPrefixOf s
      · rw [alignScan_cons_pref recA s 0 none L0 c0 rest acc hp0]
        obtain ⟨res, hres⟩ := hok c0 (s.drop L0.length)
        rw [show childCap none acc.length = none from rfl, hres]
        dsimp only
        rw [if_neg (by simp [capTruthy])]
        exact ih (acc ++ res) L c hmem2 hpref htarget
      · rw [alignScan_cons_skip recA s 0 none L0 c0 rest acc hp0 (by simp)]
        exact ih acc L c hmem2 hpref htarget

theorem search_complete0 :
    ∀ (node : FixedTreeNode) (s : List Char) (a : AlignRecord),
      EntryAt node s a →
      ∀ (orig f : Nat), HeightLE node s.length → s.length ≤ f →
      ∃ l, alignmentsAux f node s orig 0 none = Except.ok l ∧
        (orig, a.1, a.2.1, a.2.2) ∈ l := by
  intro node s a hent
  induction hent with
  | here hmemA =>
    rename_i edges2 aligns2 a2
    intro orig f hH hF
    rw [alignmentsAux_nilS]
    refine ⟨_, rfl, ?_⟩
    exact List.mem_map.mpr ⟨a2, by simpa [FixedTreeNode.alignRecords] using hmemA, rfl⟩
  | step hmemE hentc ihc =>
    rename_i edges2 aligns2 L frag c a2
    intro orig f hh hf
    cases hh with
    | mk h1 h2 h3 =>
      have hLne : L ≠ [] := h1 L c hmemE
      have hchild : HeightLE c frag.length := by
        have := h3 L c hmemE
        have heq : (L ++ frag).length - L.length = frag.length := by simp
        rw [heq] at this
        exact this
      cases L with
      | nil => exact absurd rfl hLne
      | cons u us =>
        cases f with
        | zero =>
          simp only [List.cons_append, List.length_cons] at hf
          omega
        | succ f2 =>
          obtain ⟨l2, hok2, hmem2⟩ := ihc orig f2 hchild (by
            simp only [List.cons_append, List.length_cons,
              List.length_append] at hf
            omega)
          have hok : ∀ c2 s2, ∃ l0,
              alignmentsAux f2 c2 s2 orig 0 none = Except.ok l0 :=
            fun c2 s2 => searchZeroOk f2 c2 s2 orig
          have hpref : (u :: us).isPrefixOf ((u :: us) ++ frag) :=
            isPrefixOf_iff.mpr ⟨frag, rfl⟩
          have hdrop : ((u :: us) ++ frag).drop (u :: us).length = frag := by
            simp
          obtain ⟨l, hok3, hmem3⟩ := alignScan_complete0
            (fun c2 s2 rem2 cap2 => alignmentsAux f2 c2 s2 orig rem2 cap2)
            ((u :: us) ++ frag) (orig, a2.1, a2.2.1, a2.2.2) hok edges2 []
            (u :: us) c hmemE hpref
            (by
              intro l2b hl2b
              rw [hdrop] at hl2b
              dsimp only at hl2b
              rw [hok2] at hl2b
              injection hl2b with hl2b
              subst hl2b
              exact hmem2)
          refine ⟨l, ?_, hmem3⟩
          rw [show (u :: us) ++ frag = u :: (us ++ frag) from rfl] at hok3 ⊢
          rw [alignmentsAux_succ]
          exact hok3

/- ### The identifier table of a built index -/

theorem foldl_key_getLastD :
    ∀ (tab : List (Nat × List Char)) (init : Nat),
      tab.foldl (fun _ p => p.1) init = (tab.map Prod.fst).getLastD init := by
  intro tab
  induction tab with
  | nil => intro init; rfl
  | cons p rest ih =>
    intro init
    rw [List.foldl_cons, ih p.1]
    cases hrest : rest with
    | nil => rfl
    | cons q qs => simp [List.getLastD]

theorem range'_getLastD (n : Nat) : (List.range' 1 n).getLastD 0 = n := by
  cases n with
  | zero => rfl
  | succ m =>
    rw [List.range'_concat 1 m]
    rw [List.getLastD_concat]
    omega

theorem get_id_keys (tab : List (Nat × List Char)) (ident : List Char)
    (h : tab.map Prod.fst = List.range' 1 tab.length) :
    ((_get_id tab ident).2).map Prod.fst =
      List.range' 1 ((_get_id tab ident).2).length ∧
    (((_get_id tab ident).2).find? (fun p => p.1 = (_get_id tab ident).1)).isSome ∧
    (∀ q : (Nat × List Char) → Bool,
      (tab.find? q).isSome → (((_get_id tab ident).2).find? q).isSome) := by
  unfold _get_id
  cases hf : tab.find? (fun p => p.2 = ident) with
  | some p =>
    dsimp only
    refine ⟨h, ?_, fun q hq => hq⟩
    rw [List.find?_isSome]
    exact ⟨p, List.mem_of_find?_eq_some hf, by simp⟩
  | none =>
    dsimp only
    have hval : tab.foldl (fun _ p => p.1) 0 = tab.length := by
      rw [foldl_key_getLastD, h, range'_getLastD]
    refine ⟨?_, ?_, ?_⟩
    · rw [List.map_append, h, hval]
      simp only [List.map_cons, List.map_nil, List.length_append,
        List.length_cons, List.length_nil]
      rw [show tab.length + (0 + 1) = tab.length + 1 from by omega]
      rw [List.range'_concat 1 tab.length]
      simp
      omega
    · rw [hval, List.find?_isSome]
      refine ⟨(tab.length + 1, ident), by simp, by simp⟩
    · intro q hq
      rw [List.find?_append]
      cases hfq : tab.find? q with
      | some x => rfl
      | none => rw [hfq] at hq; simp at hq

theorem nodeIds_mono (P Q : Nat → Prop) (hpq : ∀ n, P n → Q n) :
    ∀ (node : FixedTreeNode), NodeIds P node → NodeIds Q node := by
  intro node h
  induction h with
  | mk h1 h2 ih =>
    exact NodeIds.mk (fun b hb => hpq b.1 (h1 b hb)) (fun L c hm => ih L c hm)

/- ### Invariants of built indexes -/

theorem insert_alignRecords_ne (t : FixedTreeNode) (s : List Char)
    (a : AlignRecord) (hs : s ≠ []) :
    (FixedTreeNode.insert t s a).alignRecords = t.alignRecords := by
  cases s with
  | nil => exact absurd rfl hs
  | cons x xs => exact insertAux_alignRecords (x :: xs).length t x xs a

theorem subseq_length (seq : List Char) (W i : Nat) (h : i + W ≤ seq.length) :
    ((seq.drop i).take W).length = W := by
  rw [List.length_take, List.length_drop]
  omega

theorem addWindow_invariants (W idn : Nat) (seq : List Char) (rev : Bool)
    (root : FixedTreeNode) (i : Nat) (P : Nat → Prop)
    (hH : HeightLE root W) (hU : Uncommon root) (hI : NodeIds P root)
    (hP : P idn) :
    HeightLE (addWindow W idn seq rev root i) W ∧
    Uncommon (addWindow W idn seq rev root i) ∧
    NodeIds P (addWindow W idn seq rev root i) ∧
    (0 < W → i + W ≤ seq.length →
      (addWindow W idn seq rev root i).alignRecords = root.alignRecords) := by
  unfold addWindow
  have hsublen : ((seq.drop i).take W).length ≤ W := by
    rw [List.length_take]
    exact Nat.min_le_left _ _
  have hrevlen : (reverse_complement ((seq.drop i).take W)).length ≤ W := by
    rw [reverse_complement_length]
    exact hsublen
  cases rev with
  | false =>
    simp only [if_false, Bool.false_eq_true]
    refine ⟨heightLE_insertAux _ _ _ _ W hH hsublen,
      uncommon_insertAux _ _ _ _ hU,
      nodeIds_insertAux P _ _ _ _ hI hP, ?_⟩
    intro hW hiW
    refine insert_alignRecords_ne root _ _ ?_
    intro hnil
    have := congrArg List.length hnil
    rw [subseq_length seq W i hiW] at this
    simp at this
    omega
  | true =>
    simp only [if_true]
    have h1 : HeightLE (root.insert ((seq.drop i).take W) (idn, i, true)) W :=
      heightLE_insertAux _ _ _ _ W hH hsublen
    refine ⟨heightLE_insertAux _ _ _ _ W h1 hrevlen,
      uncommon_insertAux _ _ _ _ (uncommon_insertAux _ _ _ _ hU),
      nodeIds_insertAux P _ _ _ _ (nodeIds_insertAux P _ _ _ _ hI hP) hP, ?_⟩
    intro hW hiW
    have hlen1 : ((seq.drop i).take W) ≠ [] := by
      intro hnil
      have := congrArg List.length hnil
      rw [subseq_length seq W i hiW] at this
      simp at this
      omega
    have hlen2 : reverse_complement ((seq.drop i).take W) ≠ [] := by
      intro hnil
      have := congrArg List.length hnil
      rw [reverse_complement_length, subseq_length seq W i hiW] at this
      simp at this
      omega
    rw [insert_alignRecords_ne _ _ _ hlen2, insert_alignRecords_ne _ _ _ hlen1]

theorem foldl_addWindow_invariants (W idn : Nat) (seq : List Char)
    (rev : Bool) (P : Nat → Prop) (hP : P idn) :
    ∀ (l : List Nat) (root : FixedTreeNode),
      HeightLE root W → Uncommon root → NodeIds P root →
      HeightLE (l.foldl (addWindow W idn seq rev) root) W ∧
      Uncommon (l.foldl (addWindow W idn seq rev) root) ∧
      NodeIds P (l.foldl (addWindow W idn seq rev) root) ∧
      (0 < W → (∀ i ∈ l, i + W ≤ seq.length) →
        (l.foldl (addWindow W idn seq rev) root).alignRecords =
          root.alignRecords) := by
  intro l
  induction l with
  | nil => intro root hH hU hI; exact ⟨hH, hU, hI, fun _ _ => rfl⟩
  | cons i rest ih =>
    intro root hH hU hI
    rw [List.foldl_cons]
    obtain ⟨h1, h2, h3, h4⟩ :=
      addWindow_invariants W idn seq rev root i P hH hU hI hP
    obtain ⟨g1, g2, g3, g4⟩ := ih (addWindow W idn seq rev root i) h1 h2 h3
    refine ⟨g1, g2, g3, ?_⟩
    intro hW hall
    rw [g4 hW (fun j hj => hall j (by simp [hj])),
      h4 hW (hall i (by simp))]

theorem add_sequence_invariants (t : FixedTree) (identifier seq : List Char)
    (rev : Bool)
    (hH : HeightLE t.root t.width) (hU : Uncommon t.root)
    (hI : NodeIds
      (fun id => ((t.sequence_name_table.find? (fun p => p.1 = id)).isSome : Prop))
      t.root)
    (hK : t.sequence_name_table.map Prod.fst =
      List.range' 1 t.sequence_name_table.length) :
    (t.add_sequence identifier seq rev).width = t.width ∧
    HeightLE (t.add_sequence identifier seq rev).root t.width ∧
    Uncommon (t.add_sequence identifier seq rev).root ∧
    NodeIds
      (fun id => (((t.add_sequence identifier seq rev).sequence_name_table.find?
        (fun p => p.1 = id)).isSome : Prop))
      (t.add_sequence identifier seq rev).root ∧
    (t.add_sequence identifier seq rev).sequence_name_table.map Prod.fst =
      List.range' 1
        (t.add_sequence identifier seq rev).sequence_name_table.length ∧
    (0 < t.width →
      (t.add_sequence identifier seq rev).root.alignRecords =
        t.root.alignRecords) := by
  obtain ⟨hk1, hk2, hk3⟩ := get_id_keys t.sequence_name_table identifier hK
  have hImono : NodeIds
      (fun id => (((_get_id t.sequence_name_table identifier).2.find?
        (fun p => p.1 = id)).isSome : Prop)) t.root :=
    nodeIds_mono _ _ (fun n hn => hk3 (fun p => p.1 = n) hn) t.root hI
  obtain ⟨g1, g2, g3, g4⟩ := foldl_addWindow_invariants t.width
    (_get_id t.sequence_name_table identifier).1 seq rev _ hk2
    (List.range (seq.length + 1 - t.width)) t.root hH hU hImono
  refine ⟨rfl, g1, g2, g3, hk1, ?_⟩
  intro hW
  exact g4 hW (fun i hi => by
    have := List.mem_range.mp hi
    omega)

theorem foldl_add_sequence_invariants :
    ∀ (l : List (List Char × List Char × Bool)) (t : FixedTree),
      HeightLE t.root t.width → Uncommon t.root →
      NodeIds (fun id => ((t.sequence_name_table.find?
        (fun p => p.1 = id)).isSome : Prop)) t.root →
      t.sequence_name_table.map Prod.fst =
        List.range' 1 t.sequence_name_table.length →
      (l.foldl (fun t2 p => t2.add_sequence p.1 p.2.1 p.2.2) t).width = t.width ∧
      HeightLE (l.foldl (fun t2 p => t2.add_sequence p.1 p.2.1 p.2.2) t).root t.width ∧
      Uncommon (l.foldl (fun t2 p => t2.add_sequence p.1 p.2.1 p.2.2) t).root ∧
      NodeIds (fun id => (((l.foldl (fun t2 p => t2.add_sequence p.1 p.2.1 p.2.2) t).sequence_name_table.find? (fun p => p.1 = id)).isSome : Prop)) (l.foldl (fun t2 p => t2.add_sequence p.1 p.2.1 p.2.2) t).root ∧
      (l.foldl (fun t2 p => t2.add_sequence p.1 p.2.1 p.2.2) t).sequence_name_table.map Prod.fst = List.range' 1 (l.foldl (fun t2 p => t2.add_sequence p.1 p.2.1 p.2.2) t).sequence_name_table.length ∧
      (0 < t.width → (l.foldl (fun t2 p => t2.add_sequence p.1 p.2.1 p.2.2) t).root.alignRecords = t.root.alignRecords) := by
  intro l
  induction l with
  | nil => intro t h1 h2 h3 h4; exact ⟨rfl, h1, h2, h3, h4, fun _ => rfl⟩
  | cons p rest ih =>
    intro t h1 h2 h3 h4
    rw [List.foldl_cons]
    obtain ⟨b1, b2, b3, b4, b5, b6⟩ :=
      add_sequence_invariants t p.1 p.2.1 p.2.2 h1 h2 h3 h4
    obtain ⟨c1, c2, c3, c4, c5, c6⟩ := ih (t.add_sequence p.1 p.2.1 p.2.2)
      (by rw [b1]; exact b2) (by exact b3) (by exact b4) (by exact b5)
    refine ⟨by rw [c1, b1], by rw [← b1]; exact c2, c3, c4, c5, ?_⟩
    intro hw
    rw [c6 (by rw [b1]; exact hw), b6 hw]

theorem built_invariants (w : Nat)
    (inputs : List (List Char × List Char × Bool)) :
    (built w inputs).width = w ∧
    HeightLE (built w inputs).root w ∧
    Uncommon (built w inputs).root ∧
    NodeIds (fun id => (((built w inputs).sequence_name_table.find?
      (fun p => p.1 = id)).isSome : Prop)) (built w inputs).root ∧
    (built w inputs).sequence_name_table.map Prod.fst =
      List.range' 1 (built w inputs).sequence_name_table.length ∧
    (0 < w → (built w inputs).root.alignRecords = []) := by
  obtain ⟨a1, a2, a3, a4, a5, a6⟩ := foldl_add_sequence_invariants inputs
    (FixedTree.init w)
    (HeightLE.mk (by simp) (by simp) (by simp))
    (Uncommon.mk (by simp) (by simp) (by simp))
    (NodeIds.mk (by simp) (by simp)) (by simp [FixedTree.init])
  exact ⟨a1, a2, a3, a4, a5, fun hw => a6 hw⟩

/- ### Formatting through the identifier table -/

theorem formatResults_ok (tab : List (Nat × List Char)) :
    ∀ (l : List SearchResult),
      (∀ x ∈ l, ((tab.find? (fun p => p.1 = x.2.1)).isSome : Prop)) →
      ∃ out, formatResults tab l = Except.ok out ∧ out.length = l.length := by
  intro l
  induction l with
  | nil => intro _; exact ⟨[], rfl, rfl⟩
  | cons v rest ih =>
    intro hall
    have hv := hall v (by simp)
    rw [Option.isSome_iff_exists] at hv
    obtain ⟨p, hp⟩ := hv
    obtain ⟨out, hout, hlen⟩ := ih (fun x hx => hall x (by simp [hx]))
    refine ⟨(p.2, v.2.2.1, v.2.2.2) :: out, ?_, by simp [hlen]⟩
    unfold formatResults
    rw [hp]
    rw [show (some p).map (fun q => q.2) = some p.2 from rfl]
    rw [hout]

theorem formatResults_mem (tab : List (Nat × List Char)) :
    ∀ (l : List SearchResult) (out : List (List Char × Nat × Bool))
      (m id pos : Nat) (st : Bool) (nm : List Char),
      formatResults tab l = Except.ok out → (m, id, pos, st) ∈ l →
      (tab.find? (fun p => p.1 = id)).map (fun p => p.2) = some nm →
      (nm, pos, st) ∈ out := by
  intro l
  induction l with
  | nil =>
    intro out m id pos st nm _ hmem _
    simp at hmem
  | cons v rest ih =>
    intro out m id pos st nm hfmt hmem hfind
    unfold formatResults at hfmt
    cases hfv : (tab.find? (fun p => p.1 = v.2.1)).map (fun p => p.2) with
    | none => rw [hfv] at hfmt; cases hfmt
    | some name =>
      rw [hfv] at hfmt
      cases hrest : formatResults tab rest with
      | error e => rw [hrest] at hfmt; cases hfmt
      | ok out2 =>
        rw [hrest] at hfmt
        dsimp only at hfmt
        injection hfmt with hfmt
        subst hfmt
        rcases List.mem_cons.mp hmem with heq | hmem2
        · have hv2 : v = (m, id, pos, st) := heq.symm
          subst hv2
          dsimp only at hfv
          rw [hfind] at hfv
          injection hfv with hfv
          simp [hfv]
        · exact List.mem_cons_of_mem _ (ih out2 m id pos st nm hrest hmem2 hfind)

/- ### Unfolding lemmas for the top-level query -/

theorem alignments_unfold_none_false (t : FixedTree) (q : List Char) (m : Nat)
    (hw : t.width = q.length) (l : List SearchResult)
    (hsearch : t.root.alignments q m m none = Except.ok l) :
    t.alignments q m none false = formatResults t.sequence_name_table l := by
  unfold FixedTree.alignments
  rw [if_neg (by omega)]
  rw [show (if false = true then none else (none : Option Nat)) = none from rfl]
  rw [hsearch]
  dsimp only
  simp [capTruthy]

theorem alignments_unfold_best (t : FixedTree) (q : List Char) (m : Nat)
    (cap : Option Nat) (hw : t.width = q.length) (l : List SearchResult)
    (hsearch : t.root.alignments q m m none = Except.ok l) :
    t.alignments q m cap true = formatResults t.sequence_name_table
      (if capTruthy cap ∧ cap.getD 0 <
          (List.insertionSort (fun a b =>
            _extract_result_mismatch a ≤ _extract_result_mismatch b) l).length
        then (List.insertionSort (fun a b =>
          _extract_result_mismatch a ≤ _extract_result_mismatch b) l).take
            (cap.getD 0)
        else List.insertionSort (fun a b =>
          _extract_result_mismatch a ≤ _extract_result_mismatch b) l) := by
  unfold FixedTree.alignments
  rw [if_neg (by omega)]
  rw [show (if true = true then none else cap) = none from rfl]
  rw [hsearch]
  dsimp only
  simp

theorem alignments_width_error (t : FixedTree) (q : List Char) (m : Nat)
    (cap : Option Nat) (b : Bool) (hw : t.width ≠ q.length) :
    t.alignments q m cap b = Except.error Err.invalidWidth := by
  unfold FixedTree.alignments
  rw [if_pos hw]

/- ### Claim C4 -/

/-- C4: for every built index, every query of exactly the index width and
mismatch budgets m1 ≤ m2, with no cap and `best_alignments` false, both
calls return normally and the first returns at most as many alignments as
the second. -/
theorem claim_mismatch_monotonicity (w : Nat)
    (inputs : List (List Char × List Char × Bool)) (q : List Char)
    (m1 m2 : Nat) (hq : q.length = w) (hm : m1 ≤ m2) :
    ∃ l1 l2, (built w inputs).alignments q m1 none false = Except.ok l1 ∧
      (built w inputs).alignments q m2 none false = Except.ok l2 ∧
      l1.length ≤ l2.length := by
  obtain ⟨hwEq, hH, hU, hI, hK, hA⟩ := built_invariants w inputs
  have hHq : HeightLE (built w inputs).root q.length := by rw [hq]; exact hH
  obtain ⟨s1, hs1⟩ := searchNoneOk q.length (built w inputs).root q m1 m1 hHq
  obtain ⟨s2, hs2⟩ := searchNoneOk q.length (built w inputs).root q m2 m2 hHq
  have hmono : s1.length ≤ s2.length :=
    search_mono q.length (built w inputs).root q m1 m2 m1 m2 s1 s2 hm hs1 hs2
  have hcov1 : ∀ x ∈ s1, (((built w inputs).sequence_name_table.find?
      (fun p => p.1 = x.2.1)).isSome : Prop) :=
    fun x hx => search_ids _ q.length (built w inputs).root q m1 m1 none s1 x
      hI hs1 hx
  have hcov2 : ∀ x ∈ s2, (((built w inputs).sequence_name_table.find?
      (fun p => p.1 = x.2.1)).isSome : Prop) :=
    fun x hx => search_ids _ q.length (built w inputs).root q m2 m2 none s2 x
      hI hs2 hx
  obtain ⟨out1, hout1, hlen1⟩ :=
    formatResults_ok (built w inputs).sequence_name_table s1 hcov1
  obtain ⟨out2, hout2, hlen2⟩ :=
    formatResults_ok (built w inputs).sequence_name_table s2 hcov2
  refine ⟨out1, out2, ?_, ?_, ?_⟩
  · rw [alignments_unfold_none_false (built w inputs) q m1
      (by rw [hwEq, hq]) s1 hs1]
    exact hout1
  · rw [alignments_unfold_none_false (built w inputs) q m2
      (by rw [hwEq, hq]) s2 hs2]
    exact hout2
  · rw [hlen1, hlen2]
    exact hmono

/-- Witness for C4 at a concrete input. -/
theorem claim_mismatch_monotonicity_witness :
    ("GG".toList.length = 2 ∧ 0 ≤ 1) ∧
    ∃ l1 l2,
      (built 2 [(("foo".toList), ("GGAATTCC".toList), false)]).alignments
        ("GG".toList) 0 none false = Except.ok l1 ∧
      (built 2 [(("foo".toList), ("GGAATTCC".toList), false)]).alignments
        ("GG".toList) 1 none false = Except.ok l2 ∧
      l1.length ≤ l2.length :=
  ⟨⟨by decide, by decide⟩,
    claim_mismatch_monotonicity 2 [(("foo".toList), ("GGAATTCC".toList), false)]
      ("GG".toList) 0 1 (by decide) (by decide)⟩

/- ### Claim C7 -/

/-- C7: on an index built from exact-width fragments, with a query of
exactly the index width, the unequal-length `ValueError` branch of
`hamming_distance` is unreachable from `FixedTreeNode.alignments`,
whatever the budget arguments and result cap: the search never raises the
Hamming length error. -/
theorem claim_hamming_equal_length (w : Nat)
    (inputs : List (List Char × List Char × Bool)) (q : List Char)
    (orig rem : Nat) (cap : Option Nat) (hq : q.length = w) :
    (built w inputs).root.alignments q orig rem cap ≠
      Except.error Err.hammingLength := by
  obtain ⟨hwEq, hH, _, _, _, _⟩ := built_invariants w inputs
  have hHq : HeightLE (built w inputs).root q.length := by rw [hq]; exact hH
  exact search_no_hamErr q.length (built w inputs).root q orig rem cap hHq

/-- Witness for C7 at a concrete input. -/
theorem claim_hamming_equal_length_witness :
    ("GG".toList.length = 2) ∧
    (built 2 [(("foo".toList), ("GGAATTCC".toList), false)]).root.alignments
      ("GG".toList) 1 1 (some 1) ≠ Except.error Err.hammingLength :=
  ⟨by decide,
    claim_hamming_equal_length 2 [(("foo".toList), ("GGAATTCC".toList), false)]
      ("GG".toList) 1 1 (some 1) (by decide)⟩

/- ### Claim C9 -/

/-- C9: for every built (possibly empty) index, a query whose length is not
the index width makes both `alignments` (at its defaults) and the
containment check fail with the InvalidWidth `ValueError`; for a query of
the correct width both return normally and containment holds exactly when
the default `alignments` result is non-empty. -/
theorem claim_width_enforcement (w : Nat)
    (inputs : List (List Char × List Char × Bool)) (q : List Char) :
    (q.length ≠ w →
      (built w inputs).alignments q 0 none false =
        Except.error Err.invalidWidth ∧
      (built w inputs).contains q = Except.error Err.invalidWidth) ∧
    (q.length = w →
      ∃ out, (built w inputs).alignments q 0 none false = Except.ok out ∧
        ((built w inputs).contains q = Except.ok true ↔ out ≠ [])) := by
  obtain ⟨hwEq, hH, hU, hI, hK, hA⟩ := built_invariants w inputs
  constructor
  · intro hne
    have herr : (built w inputs).alignments q 0 none false =
        Except.error Err.invalidWidth :=
      alignments_width_error (built w inputs) q 0 none false (by omega)
    refine ⟨herr, ?_⟩
    unfold FixedTree.contains
    rw [herr]
  · intro heq
    have hHq : HeightLE (built w inputs).root q.length := by
      rw [heq]; exact hH
    obtain ⟨s0, hs0⟩ := searchNoneOk q.length (built w inputs).root q 0 0 hHq
    have hcov : ∀ x ∈ s0, (((built w inputs).sequence_name_table.find?
        (fun p => p.1 = x.2.1)).isSome : Prop) :=
      fun x hx => search_ids _ q.length (built w inputs).root q 0 0 none s0 x
        hI hs0 hx
    obtain ⟨out, hout, hlen⟩ :=
      formatResults_ok (built w inputs).sequence_name_table s0 hcov
    have halign : (built w inputs).alignments q 0 none false = Except.ok out := by
      rw [alignments_unfold_none_false (built w inputs) q 0
        (by rw [hwEq, heq]) s0 hs0]
      exact hout
    refine ⟨out, halign, ?_⟩
    unfold FixedTree.contains
    rw [halign]
    constructor
    · intro hc
      injection hc with hc
      intro hnil
      rw [hnil] at hc
      simp at hc
    · intro hne
      have : 0 < out.length := List.length_pos.mpr hne
      simp [this]

/-- Witness for C9 at a concrete input. -/
theorem claim_width_enforcement_witness :
    (("G".toList.length ≠ 2) ∧
      (built 2 [(("foo".toList), ("GGAATTCC".toList), false)]).alignments
        ("G".toList) 0 none false = Except.error Err.invalidWidth) ∧
    (("GG".toList.length = 2) ∧
      ∃ out, (built 2 [(("foo".toList), ("GGAATTCC".toList), false)]).alignments
        ("GG".toList) 0 none false = Except.ok out ∧
        ((built 2 [(("foo".toList), ("GGAATTCC".toList), false)]).contains
          ("GG".toList) = Except.ok true ↔ out ≠ [])) :=
  ⟨⟨by decide, ((claim_width_enforcement 2
      [(("foo".toList), ("GGAATTCC".toList), false)] ("G".toList)).1
        (by decide)).1⟩,
    ⟨by decide, (claim_width_enforcement 2
      [(("foo".toList), ("GGAATTCC".toList), false)] ("GG".toList)).2
        (by decide)⟩⟩

/- ### Claim C10 -/

/-- C10: `maximum_alignments=0` is falsy, so it never truncates: the call
behaves exactly as if no cap were given, and likewise a node-level search
whose cap argument is `0` (as forwarded when accumulated results exactly
fill the cap) runs as if uncapped. -/
theorem claim_zero_cap_uncapped :
    (∀ (t : FixedTree) (q : List Char) (m : Nat) (b : Bool),
      t.alignments q m (some 0) b = t.alignments q m none b) ∧
    (∀ (node : FixedTreeNode) (s : List Char) (orig rem : Nat),
      node.alignments s orig rem (some 0) =
        node.alignments s orig rem none) := by
  constructor
  · intro t q m b
    by_cases hw : t.width ≠ q.length
    · rw [alignments_width_error t q m (some 0) b hw,
        alignments_width_error t q m none b hw]
    · unfold FixedTree.alignments
      rw [if_neg hw, if_neg hw]
      cases b with
      | true =>
        rw [show (if true = true then none else some 0) = none from rfl,
          show (if true = true then none else (none : Option Nat)) = none
            from rfl]
        cases t.root.alignments q m m none with
        | error e => rfl
        | ok res =>
          dsimp only
          simp [capTruthy]
      | false =>
        rw [show (if false = true then none else some 0) = some 0 from rfl,
          show (if false = true then none else (none : Option Nat)) = none
            from rfl]
        unfold FixedTreeNode.alignments
        rw [search_capZero q.length t.root q m m]
        cases alignmentsAux q.length t.root q m m none with
        | error e => rfl
        | ok res =>
          dsimp only
          simp [capTruthy]
  · intro node s orig rem
    unfold FixedTreeNode.alignments
    exact search_capZero s.length node s orig rem

/- ### Claim C6 -/

theorem uncommon_pairwise_strong (node : FixedTreeNode) (h : Uncommon node) :
    List.Pairwise (fun e1 e2 => gcp e1.1 e2.1 = 0 ∧
      ¬ e1.1 <+: e2.1 ∧ ¬ e2.1 <+: e1.1) node.edges := by
  cases h with
  | mk h1 h2 h3 =>
    refine List.Pairwise.imp_of_mem ?_ h1
    intro e1 e2 hm1 hm2 hg
    have hne1 : e1.1 ≠ [] := h2 e1.1 e1.2 (by simpa [FixedTreeNode.edges] using hm1)
    have hne2 : e2.1 ≠ [] := h2 e2.1 e2.2 (by simpa [FixedTreeNode.edges] using hm2)
    refine ⟨hg, ?_, ?_⟩
    · intro hpre
      have := gcp_eq_length_of_pref e1.1 e2.1 hpre
      rw [hg] at this
      exact hne1 (List.length_eq_zero.mp this.symm)
    · intro hpre
      have := gcp_eq_length_of_pref e2.1 e1.1 hpre
      rw [gcp_comm] at hg
      rw [hg] at this
      exact hne2 (List.length_eq_zero.mp this.symm)

/-- C6: after any sequence of width-`w` insertions (any build input list),
the tree satisfies the edge-uncommonness invariant at every node
(`Uncommon`), the root's sibling edge labels in particular are pairwise
free of shared nonzero-length prefixes and of prefix relations, and the
root node holds no alignment records. -/
theorem claim_uncommon_invariant (w : Nat)
    (inputs : List (List Char × List Char × Bool)) (hw : 0 < w) :
    Uncommon (built w inputs).root ∧
    List.Pairwise (fun e1 e2 => gcp e1.1 e2.1 = 0 ∧
      ¬ e1.1 <+: e2.1 ∧ ¬ e2.1 <+: e1.1) (built w inputs).root.edges ∧
    (built w inputs).root.alignRecords = [] := by
  obtain ⟨hwEq, hH, hU, hI, hK, hA⟩ := built_invariants w inputs
  exact ⟨hU, uncommon_pairwise_strong _ hU, hA hw⟩

/-- Witness for C6 at a concrete input. -/
theorem claim_uncommon_invariant_witness :
    (0 < 2) ∧
    (Uncommon (built 2 [(("foo".toList), ("GGAATTCC".toList), false)]).root ∧
    List.Pairwise (fun e1 e2 => gcp e1.1 e2.1 = 0 ∧
      ¬ e1.1 <+: e2.1 ∧ ¬ e2.1 <+: e1.1)
      (built 2 [(("foo".toList), ("GGAATTCC".toList), false)]).root.edges ∧
    (built 2 [(("foo".toList), ("GGAATTCC".toList), false)]).root.alignRecords
      = []) :=
  ⟨by decide,
    claim_uncommon_invariant 2 [(("foo".toList), ("GGAATTCC".toList), false)]
      (by decide)⟩

/- ### Claim C3 -/

/-- C3: the concrete reference scenario: an index of width 2 over the
single forward-strand sequence "GGAATTCC" named "foo" answers
`contains("GG")` with true, `alignments("GG")` with exactly
`[("foo", 0, true)]`, two alignments at one allowed mismatch, and, with
`best_alignments=true`, `[("foo", 0, true), ("foo", 1, true)]` in that
order. -/
theorem claim_concrete_scenario :
    (built 2 [(("foo".toList), ("GGAATTCC".toList), false)]).contains
      ("GG".toList) = Except.ok true ∧
    (built 2 [(("foo".toList), ("GGAATTCC".toList), false)]).alignments
      ("GG".toList) 0 none false = Except.ok [(("foo".toList), 0, true)] ∧
    (∃ l, (built 2 [(("foo".toList), ("GGAATTCC".toList), false)]).alignments
      ("GG".toList) 1 none false = Except.ok l ∧ l.length = 2) ∧
    (built 2 [(("foo".toList), ("GGAATTCC".toList), false)]).alignments
      ("GG".toList) 1 none true =
      Except.ok [(("foo".toList), 0, true), (("foo".toList), 1, true)] := by
  refine ⟨by decide, by decide, ⟨[(("foo".toList), 0, true),
    (("foo".toList), 1, true)], by decide, by decide⟩, by decide⟩

/- ### Claim C1 -/

/-- C1 (code defect witness): with a truthy result cap, a positive
mismatch budget and `best_alignments=False`, the search reaches the
Hamming branch whose cap expression reads the misspelled variable
`maximum_alignmets` (fixedtree.py line 372), so the call raises NameError
instead of returning a capped list: the spec's cap-correctness claim is
right and the code is wrong. -/
theorem claim_cap_nameError :
    (built 2 [(("foo".toList), ("GGAATTCC".toList), false)]).alignments
      ("GG".toList) 1 (some 1) false = Except.error Err.nameError ∧
    (built 2 [(("foo".toList), ("GGAATTCC".toList), false)]).alignments
      ("GG".toList) 1 (some 1) true =
      Except.ok [(("foo".toList), 0, true)] := by
  exact ⟨by decide, by decide⟩

/- ### Claim C5 -/

/-- C5: with `best_alignments=true`, the returned list is the image,
through the identifier table, of a ranked result list whose
mismatches-consumed tags are non-decreasing, and every tag equals the
Hamming distance between the query and a stored fragment reached by the
search. The output is a pure function of the tree (hence deterministic in
the trie's edge insertion order). -/
theorem claim_best_ranking (w : Nat)
    (inputs : List (List Char × List Char × Bool)) (q : List Char) (m : Nat)
    (cap : Option Nat) (out : List (List Char × Nat × Bool))
    (hq : q.length = w)
    (hout : (built w inputs).alignments q m cap true = Except.ok out) :
    ∃ ranked : List SearchResult,
      List.Pairwise (fun x y => x.1 ≤ y.1) ranked ∧
      formatResults (built w inputs).sequence_name_table ranked =
        Except.ok out ∧
      ∀ x ∈ ranked, ∃ frag, EntryAt (built w inputs).root frag x.2 ∧
        frag.length = q.length ∧ x.1 = hammingCount frag q := by
  obtain ⟨hwEq, hH, hU, hI, hK, hA⟩ := built_invariants w inputs
  have hHq : HeightLE (built w inputs).root q.length := by rw [hq]; exact hH
  obtain ⟨s0, hs0⟩ := searchNoneOk q.length (built w inputs).root q m m hHq
  rw [alignments_unfold_best (built w inputs) q m cap (by rw [hwEq, hq]) s0
    hs0] at hout
  set sorted := List.insertionSort (fun a b =>
    _extract_result_mismatch a ≤ _extract_result_mismatch b) s0 with hsorted
  have hsortedPW : List.Pairwise (fun x y => x.1 ≤ y.1) sorted := by
    have := List.sorted_insertionSort (fun a b =>
      _extract_result_mismatch a ≤ _extract_result_mismatch b) s0
    exact this
  have hmemSorted : ∀ x ∈ sorted, x ∈ s0 := by
    intro x hx
    exact (List.perm_insertionSort (fun a b =>
      _extract_result_mismatch a ≤ _extract_result_mismatch b) s0).mem_iff.mp hx
  by_cases hc : capTruthy cap ∧ cap.getD 0 < sorted.length
  · rw [if_pos hc] at hout
    refine ⟨sorted.take (cap.getD 0), List.Pairwise.take hsortedPW, hout, ?_⟩
    intro x hx
    have hx0 : x ∈ s0 := hmemSorted x (List.mem_of_mem_take hx)
    obtain ⟨frag, hent, hfl, hx1, _⟩ := search_sound q.length
      (built w inputs).root q m m s0 x (Nat.le_refl m) hs0 hx0
    refine ⟨frag, hent, hfl, ?_⟩
    rw [hx1]
    simp
  · rw [if_neg hc] at hout
    refine ⟨sorted, hsortedPW, hout, ?_⟩
    intro x hx
    have hx0 : x ∈ s0 := hmemSorted x hx
    obtain ⟨frag, hent, hfl, hx1, _⟩ := search_sound q.length
      (built w inputs).root q m m s0 x (Nat.le_refl m) hs0 hx0
    refine ⟨frag, hent, hfl, ?_⟩
    rw [hx1]
    simp

/-- Witness for C5 at a concrete input. -/
theorem claim_best_ranking_witness :
    ("GG".toList.length = 2 ∧
      (built 2 [(("foo".toList), ("GGAATTCC".toList), false)]).alignments
        ("GG".toList) 1 none true =
        Except.ok [(("foo".toList), 0, true), (("foo".toList), 1, true)]) ∧
    ∃ ranked : List SearchResult,
      List.Pairwise (fun x y => x.1 ≤ y.1) ranked ∧
      formatResults (built 2 [(("foo".toList), ("GGAATTCC".toList),
        false)]).sequence_name_table ranked =
        Except.ok [(("foo".toList), 0, true), (("foo".toList), 1, true)] ∧
      ∀ x ∈ ranked, ∃ frag, EntryAt (built 2 [(("foo".toList),
        ("GGAATTCC".toList), false)]).root frag x.2 ∧
        frag.length = ("GG".toList).length ∧
        x.1 = hammingCount frag ("GG".toList) :=
  ⟨⟨by decide, by decide⟩,
    claim_best_ranking 2 [(("foo".toList), ("GGAATTCC".toList), false)]
      ("GG".toList) 1 none
      [(("foo".toList), 0, true), (("foo".toList), 1, true)]
      (by decide) (by decide)⟩

/- ### Claim C8 -/

theorem foldl_addWindow_preserves_entry (W idn : Nat) (seq : List Char)
    (rev : Bool) :
    ∀ (l : List Nat) (root : FixedTreeNode) (frag : List Char)
      (a : AlignRecord), EntryAt root frag a →
      EntryAt (l.foldl (addWindow W idn seq rev) root) frag a := by
  intro l
  induction l with
  | nil => intro root frag a h; exact h
  | cons j rest ih =>
    intro root frag a h
    rw [List.foldl_cons]
    refine ih _ frag a ?_
    unfold addWindow
    cases rev with
    | false =>
      simp only [if_false, Bool.false_eq_true]
      exact entryAt_insert_preserved _ _ _ _ frag a h
    | true =>
      simp only [if_true]
      exact entryAt_insert_preserved _ _ _ _ frag a
        (entryAt_insert_preserved _ _ _ _ frag a h)

theorem foldl_addWindow_entry (W idn : Nat) (seq : List Char) (hW : 0 < W) :
    ∀ (l : List Nat) (root : FixedTreeNode) (i : Nat),
      i ∈ l → i + W ≤ seq.length → HeightLE root W →
      EntryAt (l.foldl (addWindow W idn seq true) root)
        ((seq.drop i).take W) (idn, i, true) ∧
      EntryAt (l.foldl (addWindow W idn seq true) root)
        (reverse_complement ((seq.drop i).take W)) (idn, i, false) := by
  intro l
  induction l with
  | nil => intro root i hmem; simp at hmem
  | cons j rest ih =>
    intro root i hmem hiw hH
    rw [List.foldl_cons]
    have hHnext : HeightLE (addWindow W idn seq true root j) W := by
      unfold addWindow
      simp only [if_true]
      refine heightLE_insertAux _ _ _ _ W (heightLE_insertAux _ _ _ _ W hH ?_) ?_
      · rw [List.length_take]; exact Nat.min_le_left _ _
      · rw [reverse_complement_length, List.length_take]
        exact Nat.min_le_left _ _
    rcases List.mem_cons.mp hmem with heq | hmem2
    · subst heq
      have hfrag : ((seq.drop i).take W).length = W := subseq_length seq W i hiw
      have hrfrag : (reverse_complement ((seq.drop i).take W)).length = W := by
        rw [reverse_complement_length]; exact hfrag
      have hHf : HeightLE root ((seq.drop i).take W).length := by
        rw [hfrag]; exact hH
      have hent1 : EntryAt (root.insert ((seq.drop i).take W) (idn, i, true))
          ((seq.drop i).take W) (idn, i, true) :=
        entryAt_insertAux _ root _ _ _ hHf (Nat.le_refl _) (Nat.le_refl _)
      have hH1 : HeightLE (root.insert ((seq.drop i).take W) (idn, i, true)) W := by
        refine heightLE_insertAux _ _ _ _ W hH ?_
        rw [hfrag]
      have hH1r : HeightLE (root.insert ((seq.drop i).take W) (idn, i, true))
          (reverse_complement ((seq.drop i).take W)).length := by
        rw [hrfrag]; exact hH1
      have hent2 : EntryAt ((root.insert ((seq.drop i).take W) (idn, i, true)).insert
          (reverse_complement ((seq.drop i).take W)) (idn, i, false))
          (reverse_complement ((seq.drop i).take W)) (idn, i, false) :=
        entryAt_insertAux _ _ _ _ _ hH1r (Nat.le_refl _) (Nat.le_refl _)
      have hent1b : EntryAt ((root.insert ((seq.drop i).take W) (idn, i, true)).insert
          (reverse_complement ((seq.drop i).take W)) (idn, i, false))
          ((seq.drop i).take W) (idn, i, true) :=
        entryAt_insert_preserved _ _ _ _ _ _ hent1
      constructor
      · refine foldl_addWindow_preserves_entry W idn seq true rest _ _ _ ?_
        unfold addWindow
        simp only [if_true]
        exact hent1b
      · refine foldl_addWindow_preserves_entry W idn seq true rest _ _ _ ?_
        unfold addWindow
        simp only [if_true]
        exact hent2
    · exact ih (addWindow W idn seq true root j) i hmem2 hiw hHnext

/-- C8: building with `include_reverse_complement` inserts, for every
window offset `i`, the forward fragment with record `(id, i, true)` and
its reverse complement with record `(id, i, false)`, so querying the
fragment returns `(identifier, i, true)` and querying its reverse
complement returns a record with `strand=false` at the same
forward-sequence offset `i`. -/
theorem claim_reverse_complement_offsets (w : Nat)
    (identifier seq : List Char) (i : Nat) (hw : 0 < w)
    (hiw : i + w ≤ seq.length) :
    ∃ outF outR,
      (built w [(identifier, seq, true)]).alignments ((seq.drop i).take w)
        0 none false = Except.ok outF ∧ (identifier, i, true) ∈ outF ∧
      (built w [(identifier, seq, true)]).alignments
        (reverse_complement ((seq.drop i).take w)) 0 none false =
        Except.ok outR ∧ (identifier, i, false) ∈ outR := by
  obtain ⟨hwEq, hH, hU, hI, hK, hA⟩ := built_invariants w [(identifier, seq, true)]
  have htab : (built w [(identifier, seq, true)]).sequence_name_table =
      [(1, identifier)] := rfl
  have hroot : (built w [(identifier, seq, true)]).root =
      (List.range (seq.length + 1 - w)).foldl (addWindow w 1 seq true)
        (FixedTreeNode.mk [] []) := rfl
  have hmemR : i ∈ List.range (seq.length + 1 - w) := by
    rw [List.mem_range]
    omega
  have hfrag : ((seq.drop i).take w).length = w := subseq_length seq w i hiw
  have hrfrag : (reverse_complement ((seq.drop i).take w)).length = w := by
    rw [reverse_complement_length]; exact hfrag
  obtain ⟨hentF, hentR⟩ := foldl_addWindow_entry w 1 seq hw
    (List.range (seq.length + 1 - w)) (FixedTreeNode.mk [] []) i hmemR hiw
    (HeightLE.mk (by simp) (by simp) (by simp))
  rw [← hroot] at hentF hentR
  have hHf : HeightLE (built w [(identifier, seq, true)]).root
      ((seq.drop i).take w).length := by rw [hfrag]; exact hH
  have hHr : HeightLE (built w [(identifier, seq, true)]).root
      (reverse_complement ((seq.drop i).take w)).length := by
    rw [hrfrag]; exact hH
  obtain ⟨lF, hokF, hmemF⟩ := search_complete0
    (built w [(identifier, seq, true)]).root ((seq.drop i).take w)
    (1, i, true) hentF 0 ((seq.drop i).take w).length hHf (Nat.le_refl _)
  obtain ⟨lR, hokR, hmemRp⟩ := search_complete0
    (built w [(identifier, seq, true)]).root
    (reverse_complement ((seq.drop i).take w)) (1, i, false) hentR 0
    (reverse_complement ((seq.drop i).take w)).length hHr (Nat.le_refl _)
  have hcovF : ∀ x ∈ lF,
      (((built w [(identifier, seq, true)]).sequence_name_table.find?
        (fun p => p.1 = x.2.1)).isSome : Prop) :=
    fun x hx => search_ids _ _ _ _ 0 0 none lF x hI hokF hx
  have hcovR : ∀ x ∈ lR,
      (((built w [(identifier, seq, true)]).sequence_name_table.find?
        (fun p => p.1 = x.2.1)).isSome : Prop) :=
    fun x hx => search_ids _ _ _ _ 0 0 none lR x hI hokR hx
  obtain ⟨outF, houtF, _⟩ := formatResults_ok _ lF hcovF
  obtain ⟨outR, houtR, _⟩ := formatResults_ok _ lR hcovR
  have hfind : ((built w [(identifier, seq, true)]).sequence_name_table.find?
      (fun p => p.1 = 1)).map (fun p => p.2) = some identifier := by
    rw [htab]
    simp
  refine ⟨outF, outR, ?_, ?_, ?_, ?_⟩
  · rw [alignments_unfold_none_false _ _ 0 (by rw [hwEq, hfrag]) lF hokF]
    exact houtF
  · exact formatResults_mem _ lF outF 0 1 i true identifier houtF hmemF hfind
  · rw [alignments_unfold_none_false _ _ 0 (by rw [hwEq, hrfrag]) lR hokR]
    exact houtR
  · exact formatResults_mem _ lR outR 0 1 i false identifier houtR hmemRp hfind

/-- Witness for C8 at a concrete input (width 5, as in the spec's
reverse-complement scenario). -/
theorem claim_reverse_complement_offsets_witness :
    (0 < 5 ∧ 2 + 5 ≤ ("GGAATTCCA".toList).length) ∧
    ∃ outF outR,
      (built 5 [(("foo".toList), ("GGAATTCCA".toList), true)]).alignments
        ((("GGAATTCCA".toList).drop 2).take 5) 0 none false =
        Except.ok outF ∧ (("foo".toList), 2, true) ∈ outF ∧
      (built 5 [(("foo".toList), ("GGAATTCCA".toList), true)]).alignments
        (reverse_complement ((("GGAATTCCA".toList).drop 2).take 5)) 0 none
          false = Except.ok outR ∧ (("foo".toList), 2, false) ∈ outR :=
  ⟨⟨by decide, by decide⟩,
    claim_reverse_complement_offsets 5 ("foo".toList) ("GGAATTCCA".toList) 2
      (by decide) (by decide)⟩

/- ### ASCII discipline of built trees (for the codec claims) -/

theorem addWindow_ascii (W idn : Nat) (seq : List Char) (rev : Bool)
    (root : FixedTreeNode) (i : Nat) (hseq : StrAscii seq)
    (hroot : NodeAscii root) : NodeAscii (addWindow W idn seq rev root i) := by
  unfold addWindow
  have hsub : StrAscii ((seq.drop i).take W) :=
    strAscii_take _ _ (strAscii_drop _ _ hseq)
  cases rev with
  | false =>
    simp only [if_false, Bool.false_eq_true]
    exact nodeAscii_insertAux _ _ _ _ hroot hsub
  | true =>
    simp only [if_true]
    exact nodeAscii_insertAux _ _ _ _
      (nodeAscii_insertAux _ _ _ _ hroot hsub)
      (reverse_complement_ascii _ hsub)

theorem foldl_addWindow_ascii (W idn : Nat) (seq : List Char) (rev : Bool)
    (hseq : StrAscii seq) :
    ∀ (l : List Nat) (root : FixedTreeNode), NodeAscii root →
      NodeAscii (l.foldl (addWindow W idn seq rev) root) := by
  intro l
  induction l with
  | nil => intro root h; exact h
  | cons j rest ih =>
    intro root h
    rw [List.foldl_cons]
    exact ih _ (addWindow_ascii W idn seq rev root j hseq h)

theorem add_sequence_ascii (t : FixedTree) (identifier seq : List Char)
    (rev : Bool)
    (hta : ∀ p ∈ t.sequence_name_table, StrAscii p.2)
    (hra : NodeAscii t.root) (hid : StrAscii identifier)
    (hseq : StrAscii seq) :
    (∀ p ∈ (t.add_sequence identifier seq rev).sequence_name_table,
      StrAscii p.2) ∧
    NodeAscii (t.add_sequence identifier seq rev).root := by
  constructor
  · intro p hp
    have heq : (t.add_sequence identifier seq rev).sequence_name_table =
        (_get_id t.sequence_name_table identifier).2 := rfl
    rw [heq] at hp
    unfold _get_id at hp
    cases hf : t.sequence_name_table.find? (fun p2 => p2.2 = identifier) with
    | some p2 =>
      rw [hf] at hp
      exact hta p hp
    | none =>
      rw [hf] at hp
      dsimp only at hp
      rcases List.mem_append.mp hp with hp2 | hp2
      · exact hta p hp2
      · rcases List.mem_singleton.mp hp2 with rfl
        exact hid
  · have heq : (t.add_sequence identifier seq rev).root =
        (List.range (seq.length + 1 - t.width)).foldl
          (addWindow t.width (_get_id t.sequence_name_table identifier).1 seq
            rev) t.root := rfl
    rw [heq]
    exact foldl_addWindow_ascii _ _ seq rev hseq _ t.root hra

theorem built_ascii (w : Nat) (inputs : List (List Char × List Char × Bool))
    (hin : InputsAscii inputs) :
    (∀ p ∈ (built w inputs).sequence_name_table, StrAscii p.2) ∧
    NodeAscii (built w inputs).root := by
  suffices h : ∀ (l : List (List Char × List Char × Bool)) (t : FixedTree),
      InputsAscii l → (∀ p ∈ t.sequence_name_table, StrAscii p.2) →
      NodeAscii t.root →
      (∀ p ∈ (l.foldl (fun t2 p => t2.add_sequence p.1 p.2.1 p.2.2) t).sequence_name_table, StrAscii p.2) ∧
      NodeAscii (l.foldl (fun t2 p => t2.add_sequence p.1 p.2.1 p.2.2) t).root by
    exact h inputs (FixedTree.init w) hin (by simp [FixedTree.init])
      (NodeAscii.mk (by simp) (by simp))
  intro l
  induction l with
  | nil => intro t _ h1 h2; exact ⟨h1, h2⟩
  | cons p rest ih =>
    intro t hin2 h1 h2
    rw [List.foldl_cons]
    have hp := hin2 p (by simp)
    obtain ⟨g1, g2⟩ := add_sequence_ascii t p.1 p.2.1 p.2.2 h1 h2 hp.1 hp.2
    exact ih (t.add_sequence p.1 p.2.1 p.2.2)
      (fun p2 hp2 => hin2 p2 (by simp [hp2])) g1 g2

/- ### Codec round trip on ASCII data -/

theorem utf8Encode_ascii (s : List Char) (h : StrAscii s) :
    utf8Encode s = s.map Char.toNat := by
  induction s with
  | nil => rfl
  | cons c rest ih =>
    have hc : c.toNat < 128 := h c (by simp)
    have hrest : StrAscii rest := fun d hd => h d (by simp [hd])
    rw [utf8Encode, List.flatMap_cons]
    rw [show utf8EncodeChar c = [c.toNat] from by
      unfold utf8EncodeChar
      rw [if_pos (by omega)]]
    rw [show rest.flatMap utf8EncodeChar = utf8Encode rest from rfl, ih hrest]
    rfl

theorem utf8Decode_ascii (s : List Char) (h : StrAscii s) :
    utf8DecodeAux (s.map Char.toNat).length (s.map Char.toNat) = some s := by
  suffices hgen : ∀ (f : Nat) (s2 : List Char), StrAscii s2 →
      s2.length ≤ f → utf8DecodeAux f (s2.map Char.toNat) = some s2 by
    exact hgen (s.map Char.toNat).length s h (by simp)
  intro f
  induction f with
  | zero =>
    intro s2 h2 hl
    cases s2 with
    | nil => rfl
    | cons c rest => simp at hl
  | succ f2 ih =>
    intro s2 h2 hl
    cases s2 with
    | nil => rfl
    | cons c rest =>
      have hc : c.toNat < 128 := h2 c (by simp)
      rw [List.map_cons, utf8DecodeAux.eq_def]
      dsimp only
      rw [if_pos (show c.toNat < 0x80 by omega)]
      rw [ih rest (fun d hd => h2 d (by simp [hd])) (by simp at hl; omega)]
      rw [Option.map_some']
      rw [Char.ofNat_toNat]

theorem padTruncate_exact (bs : List Nat) : padTruncate bs.length bs = bs := by
  unfold padTruncate
  simp

theorem readBytes_exact :
    ∀ (bs : List Nat) (rest : List Tok),
      readBytes bs.length (bs.map Tok.byte ++ rest) = some (bs, rest) := by
  intro bs
  induction bs with
  | nil => intro rest; rfl
  | cons b bs2 ih =>
    intro rest
    rw [List.map_cons, List.length_cons]
    rw [show (Tok.byte b :: bs2.map Tok.byte) ++ rest =
      Tok.byte b :: (bs2.map Tok.byte ++ rest) from rfl]
    rw [readBytes, ih rest]

theorem readStr_packStr (s : List Char) (hA : StrAscii s) (ts : List Tok)
    (rest : List Tok) (hp : packStr s = some ts) :
    readStr (ts ++ rest) = some (s, rest) := by
  unfold packStr at hp
  by_cases hlen : s.length < 2 ^ 32
  · rw [if_pos hlen] at hp
    injection hp with hp
    subst hp
    rw [utf8Encode_ascii s hA]
    have hblen : (s.map Char.toNat).length = s.length := by simp
    rw [← hblen, padTruncate_exact]
    unfold readStr
    rw [show (Tok.nat (s.map Char.toNat).length ::
        (s.map Char.toNat).map Tok.byte) ++ rest =
      Tok.nat (s.map Char.toNat).length ::
        ((s.map Char.toNat).map Tok.byte ++ rest) from rfl]
    rw [show readNat (Tok.nat (s.map Char.toNat).length ::
        ((s.map Char.toNat).map Tok.byte ++ rest)) =
      some ((s.map Char.toNat).length,
        (s.map Char.toNat).map Tok.byte ++ rest) from rfl]
    dsimp only
    rw [readBytes_exact (s.map Char.toNat) rest]
    dsimp only
    rw [show utf8Decode (s.map Char.toNat) = some s from utf8Decode_ascii s hA]
  · rw [if_neg hlen] at hp
    cases hp

theorem readAligns_packAligns :
    ∀ (al : List AlignRecord) (ts : List Tok) (rest : List Tok),
      packAligns al = some ts →
      readAligns al.length (ts ++ rest) = some (al, rest) := by
  intro al
  induction al with
  | nil =>
    intro ts rest hp
    injection hp with hp
    subst hp
    rfl
  | cons a al2 ih =>
    intro ts rest hp
    obtain ⟨id, pos, st⟩ := a
    unfold packAligns at hp
    by_cases hb : id < 2 ^ 32 ∧ pos < 2 ^ 32
    · rw [if_pos hb] at hp
      cases hp2 : packAligns al2 with
      | none => rw [hp2] at hp; cases hp
      | some ts2 =>
        rw [hp2] at hp
        rw [Option.map_some'] at hp
        injection hp with hp
        subst hp
        rw [List.length_cons]
        rw [show (Tok.nat id :: Tok.nat pos :: Tok.bool st :: ts2) ++ rest =
          Tok.nat id :: Tok.nat pos :: Tok.bool st :: (ts2 ++ rest) from rfl]
        rw [readAligns]
        rw [show readNat (Tok.nat id :: Tok.nat pos :: Tok.bool st ::
          (ts2 ++ rest)) = some (id, Tok.nat pos :: Tok.bool st :: (ts2 ++ rest))
          from rfl]
        dsimp only
        rw [show readNat (Tok.nat pos :: Tok.bool st :: (ts2 ++ rest)) =
          some (pos, Tok.bool st :: (ts2 ++ rest)) from rfl]
        dsimp only
        rw [show readBool (Tok.bool st :: (ts2 ++ rest)) =
          some (st, ts2 ++ rest) from rfl]
        dsimp only
        rw [ih ts2 rest hp2]
    · rw [if_neg hb] at hp
      cases hp

theorem loadEdges_storeEdges (f2 : Nat)
    (ihN : ∀ (node : FixedTreeNode) (out rest : List Tok), NodeAscii node →
      storeNodeAux f2 node = some out →
      loadNodeAux f2 (out ++ rest) = some (node, rest)) :
    ∀ (es : List (List Char × FixedTreeNode)) (out rest : List Tok),
      (∀ e ∈ es, StrAscii e.1) → (∀ e ∈ es, NodeAscii e.2) →
      storeEdges (storeNodeAux f2) es = some out →
      loadEdges (loadNodeAux f2) es.length (out ++ rest) = some (es, rest) := by
  intro es
  induction es with
  | nil =>
    intro out rest _ _ hp
    injection hp with hp
    subst hp
    rfl
  | cons e0 rest2 ih =>
    intro out rest hA1 hA2 hp
    obtain ⟨L, c⟩ := e0
    unfold storeEdges at hp
    cases hps : packStr L with
    | none => rw [hps] at hp; cases hp
    | some ls =>
      cases hpc : storeNodeAux f2 c with
      | none => rw [hps, hpc] at hp; cases hp
      | some cs =>
        cases hpr : storeEdges (storeNodeAux f2) rest2 with
        | none => rw [hps, hpc, hpr] at hp; cases hp
        | some rs =>
          rw [hps, hpc, hpr] at hp
          dsimp only at hp
          injection hp with hp
          subst hp
          rw [List.length_cons]
          rw [show (ls ++ cs ++ rs) ++ rest = ls ++ (cs ++ (rs ++ rest)) from by
            simp [List.append_assoc]]
          rw [loadEdges]
          rw [readStr_packStr L (by simpa using hA1 (L, c) (by simp)) ls _ hps]
          dsimp only
          rw [ihN c cs (rs ++ rest) (by simpa using hA2 (L, c) (by simp)) hpc]
          dsimp only
          rw [ih rs rest (fun e he => hA1 e (by simp [he]))
            (fun e he => hA2 e (by simp [he])) hpr]

theorem loadNode_storeNode :
    ∀ (f : Nat) (node : FixedTreeNode) (out rest : List Tok),
      NodeAscii node → storeNodeAux f node = some out →
      loadNodeAux f (out ++ rest) = some (node, rest) := by
  intro f
  induction f with
  | zero => intro node out rest _ hp; cases hp
  | succ f2 ih =>
    intro node out rest hA hp
    cases node with
    | mk es as =>
      cases hA with
      | mk hA1 hA2 =>
        unfold storeNodeAux at hp
        by_cases hb : (FixedTreeNode.mk es as).alignRecords.length < 2 ^ 32 ∧
            (FixedTreeNode.mk es as).edges.length < 2 ^ 32
        · rw [if_pos hb] at hp
          cases hpa : packAligns (FixedTreeNode.mk es as).alignRecords with
          | none => rw [hpa] at hp; cases hp
          | some asn =>
            cases hpe : storeEdges (storeNodeAux f2)
                (FixedTreeNode.mk es as).edges with
            | none => rw [hpa, hpe] at hp; cases hp
            | some ets =>
              rw [hpa, hpe] at hp
              dsimp only at hp
              injection hp with hp
              subst hp
              rw [show (Tok.nat (FixedTreeNode.mk es as).alignRecords.length ::
                  asn ++ Tok.nat (FixedTreeNode.mk es as).edges.length :: ets)
                  ++ rest =
                Tok.nat (FixedTreeNode.mk es as).alignRecords.length ::
                  (asn ++ (Tok.nat (FixedTreeNode.mk es as).edges.length ::
                    (ets ++ rest))) from by simp]
              rw [loadNodeAux]
              rw [show readNat (Tok.nat
                  (FixedTreeNode.mk es as).alignRecords.length ::
                  (asn ++ (Tok.nat (FixedTreeNode.mk es as).edges.length ::
                    (ets ++ rest)))) =
                some ((FixedTreeNode.mk es as).alignRecords.length,
                  asn ++ (Tok.nat (FixedTreeNode.mk es as).edges.length ::
                    (ets ++ rest))) from rfl]
              dsimp only
              rw [show (FixedTreeNode.mk es as).alignRecords = as from rfl] at hpa ⊢
              rw [readAligns_packAligns as asn _ hpa]
              dsimp only
              rw [show readNat (Tok.nat (FixedTreeNode.mk es as).edges.length ::
                  (ets ++ rest)) =
                some ((FixedTreeNode.mk es as).edges.length, ets ++ rest)
                from rfl]
              dsimp only
              rw [show (FixedTreeNode.mk es as).edges = es from rfl] at hpe ⊢
              rw [loadEdges_storeEdges f2 ih es ets rest
                (fun e he => hA1 e.1 e.2 he) (fun e he => hA2 e.1 e.2 he) hpe]
        · rw [if_neg hb] at hp
          cases hp

theorem insertionSort_table_eq (tab : List (Nat × List Char))
    (h : tab.map Prod.fst = List.range' 1 tab.length) :
    List.insertionSort (fun a b => a.1 ≤ b.1) tab = tab := by
  refine List.Sorted.insertionSort_eq ?_
  have h1 : List.Pairwise (fun a b => a < b) (tab.map Prod.fst) := by
    rw [h]
    exact List.pairwise_lt_range' 1 tab.length
  have h2 : List.Pairwise (fun a b => a.1 < b.1) tab := List.pairwise_map.mp h1
  exact h2.imp (fun hab => Nat.le_of_lt hab)

theorem readTable_packTable :
    ∀ (tab : List (Nat × List Char)) (k : Nat) (out rest : List Tok),
      (∀ p ∈ tab, StrAscii p.2) →
      tab.map Prod.fst = List.range' k tab.length →
      packTable tab = some out →
      readTable k tab.length (out ++ rest) = some (tab, rest) := by
  intro tab
  induction tab with
  | nil =>
    intro k out rest _ _ hp
    injection hp with hp
    subst hp
    rfl
  | cons p0 rest2 ih =>
    intro k out rest hA hK hp
    obtain ⟨k0, name⟩ := p0
    unfold packTable at hp
    cases hps : packStr name with
    | none => rw [hps] at hp; cases hp
    | some ns =>
      cases hpr : packTable rest2 with
      | none => rw [hps, hpr] at hp; cases hp
      | some rs =>
        rw [hps, hpr] at hp
        dsimp only at hp
        injection hp with hp
        subst hp
        rw [List.length_cons] at hK ⊢
        rw [List.range'_succ] at hK
        rw [List.map_cons] at hK
        injection hK with hk0 hKrest
        subst hk0
        rw [show (ns ++ rs) ++ rest = ns ++ (rs ++ rest) from by simp]
        rw [readTable]
        rw [readStr_packStr name (by simpa using hA (k0, name) (by simp)) ns _
          hps]
        dsimp only
        rw [ih (k0 + 1) rs rest (fun p hp2 => hA p (by simp [hp2])) hKrest hpr]

theorem load_store (t : FixedTree) (stream rest : List Tok)
    (hA1 : ∀ p ∈ t.sequence_name_table, StrAscii p.2)
    (hA2 : NodeAscii t.root)
    (hK : t.sequence_name_table.map Prod.fst =
      List.range' 1 t.sequence_name_table.length)
    (hs : t.store = some stream) :
    FixedTree.load (stream ++ rest) = some (t, rest) := by
  unfold FixedTree.store at hs
  by_cases hb : t.width < 2 ^ 32 ∧ t.sequence_name_table.length < 2 ^ 32
  · rw [if_pos hb] at hs
    rw [insertionSort_table_eq t.sequence_name_table hK] at hs
    cases hpt : packTable t.sequence_name_table with
    | none => rw [hpt] at hs; cases hs
    | some tabts =>
      cases hpn : storeNodeAux (t.width + 1) t.root with
      | none => rw [hpt, hpn] at hs; cases hs
      | some rootts =>
        rw [hpt, hpn] at hs
        dsimp only at hs
        injection hs with hs
        subst hs
        rw [show (Tok.nat t.width :: Tok.nat t.sequence_name_table.length ::
            tabts ++ rootts) ++ rest =
          Tok.nat t.width :: (Tok.nat t.sequence_name_table.length ::
            (tabts ++ (rootts ++ rest))) from by simp]
        unfold FixedTree.load
        rw [show readNat (Tok.nat t.width ::
            (Tok.nat t.sequence_name_table.length ::
              (tabts ++ (rootts ++ rest)))) =
          some (t.width, Tok.nat t.sequence_name_table.length ::
            (tabts ++ (rootts ++ rest))) from rfl]
        dsimp only
        rw [show readNat (Tok.nat t.sequence_name_table.length ::
            (tabts ++ (rootts ++ rest))) =
          some (t.sequence_name_table.length, tabts ++ (rootts ++ rest))
          from rfl]
        dsimp only
        rw [readTable_packTable t.sequence_name_table 1 tabts (rootts ++ rest)
          hA1 hK hpt]
        dsimp only
        rw [loadNode_storeNode (t.width + 1) t.root rootts rest hA2 hpn]
  · rw [if_neg hb] at hs
    cases hs

/- ### Claim C2 -/

/-- C2 counterexample: the codec packs `len(ident)` (a character count) as
the string-field length but the UTF-8 byte encoding as its payload, so
`struct.pack('<ns')` truncates multi-byte identifiers. Building a width-1
index over sequence "A" with two-character identifier "éa" stores
successfully, loads successfully, but the loaded identifier table maps 1
to "é" instead of "éa": load(store(index)) does not restore the identifier
table. -/
theorem claim_roundtrip_counterexample :
    ((built 1 [((['é', 'a']), (['A']), false)]).store).isSome = true ∧
    (Option.map (fun p => p.1.sequence_name_table)
      (FixedTree.load
        (((built 1 [((['é', 'a']), (['A']), false)]).store).getD []))) =
      some [(1, ['é'])] ∧
    (built 1 [((['é', 'a']), (['A']), false)]).sequence_name_table =
      [(1, ['é', 'a'])] ∧
    [((1 : Nat), ['é'])] ≠ [((1 : Nat), ['é', 'a'])] :=
  ⟨by decide, by decide, by decide, by decide⟩

/-- C2 (amended to ASCII build inputs, as the counterexample forces): for
every built index whose identifiers and residues are single-byte (ASCII)
characters, whenever `store` produces a stream, `load` of that stream
(plus any trailing data) returns an index equal to the original: same
width, identical identifier table, and identical `alignments` results for
every query string, mismatch budget, cap and ranking flag. -/
theorem claim_roundtrip_ascii (w : Nat)
    (inputs : List (List Char × List Char × Bool)) (hA : InputsAscii inputs)
    (stream rest : List Tok)
    (hs : (built w inputs).store = some stream) :
    ∃ t2, FixedTree.load (stream ++ rest) = some (t2, rest) ∧
      t2.width = (built w inputs).width ∧
      t2.sequence_name_table = (built w inputs).sequence_name_table ∧
      ∀ (q : List Char) (m : Nat) (cap : Option Nat) (b : Bool),
        t2.alignments q m cap b = (built w inputs).alignments q m cap b := by
  obtain ⟨hta, hra⟩ := built_ascii w inputs hA
  obtain ⟨hwEq, hH, hU, hI, hK, hAl⟩ := built_invariants w inputs
  refine ⟨built w inputs, ?_, rfl, rfl, fun q m cap b => rfl⟩
  exact load_store (built w inputs) stream rest hta hra hK hs

/-- Witness for C2 at a concrete input. -/
theorem claim_roundtrip_ascii_witness :
    (InputsAscii [(("foo".toList), ("GGAATTCC".toList), false)] ∧
      (built 2 [(("foo".toList), ("GGAATTCC".toList), false)]).store =
        some (((built 2 [(("foo".toList), ("GGAATTCC".toList),
          false)]).store).getD [])) ∧
    ∃ t2, FixedTree.load
        ((((built 2 [(("foo".toList), ("GGAATTCC".toList),
          false)]).store).getD []) ++ []) = some (t2, []) ∧
      t2.width = (built 2 [(("foo".toList), ("GGAATTCC".toList),
        false)]).width ∧
      t2.sequence_name_table = (built 2 [(("foo".toList),
        ("GGAATTCC".toList), false)]).sequence_name_table ∧
      ∀ (q : List Char) (m : Nat) (cap : Option Nat) (b : Bool),
        t2.alignments q m cap b = (built 2 [(("foo".toList),
          ("GGAATTCC".toList), false)]).alignments q m cap b :=
  ⟨⟨by unfold InputsAscii StrAscii; decide, by decide⟩,
    claim_roundtrip_ascii 2 [(("foo".toList), ("GGAATTCC".toList), false)]
      (by unfold InputsAscii StrAscii; decide)
      (((built 2 [(("foo".toList), ("GGAATTCC".toList), false)]).store).getD [])
      [] (by decide)⟩
